import Mathlib

/-!
Verification of the metric/connection engine of `galgebra/metric.py`.

The development shallowly embeds the sympy-based code: sympy expressions are
modelled by the deep datatype `GExpr` below (rational literals, commutative
symbols, non-commutative basis symbols, sums, products, rational powers,
absolute value, sign, uninterpreted function applications and unevaluated
derivatives).  sympy library routines that the code calls as black boxes
(`expand`, `trigsimp`, `sqf_list`, `simplify`, `Matrix.inv`,
`Matrix.adjugate`) are modelled as a substrate record `SymSub` of arbitrary
functions, with the properties the proofs need stated as explicit hypotheses.
The process-wide simplification pipeline `Simp.modes` is modelled as an
explicit function parameter `smp`.

Semantic (mathematical) equality of symbolic expressions is modelled by
`sem`, an interpretation into the free module over the reals spanned by words
of non-commutative atoms; `sEq` (pointwise equality of interpretations)
models equality of sympy values for the algebraic fragment used here.
-/

namespace Galgebra

/-- Deep embedding of the sympy expressions manipulated by `metric.py`.
`num` are rational literals, `var` commutative symbols (coordinates among
them), `bvec` non-commutative basis/reciprocal-basis symbols, `powE` a power
with rational exponent (sympy `Pow`; division is `Pow(_, -1)`, square roots
are `Pow(_, 1/2)`), `fapp` an applied undefined function (sympy
`Function(name)(*args)`; in `metric.py` such functions are only ever applied
to the coordinate symbols, so the arguments are variable indices), `derivE`
an unevaluated `Derivative`. -/
inductive GExpr : Type where
  | num : ℚ → GExpr
  | var : ℕ → GExpr
  | bvec : ℕ → GExpr
  | add : GExpr → GExpr → GExpr
  | mul : GExpr → GExpr → GExpr
  | powE : GExpr → ℚ → GExpr
  | absE : GExpr → GExpr
  | signE : GExpr → GExpr
  | fapp : String → List ℕ → GExpr
  | derivE : GExpr → ℕ → GExpr
deriving DecidableEq, Inhabited

namespace GExpr

/-- Model of sympy `a - b`, which sympy represents as `Add(a, Mul(-1, b))`. -/
def subE (a b : GExpr) : GExpr := add a (mul (num (-1)) b)

/-- Model of sympy `a / b`, which sympy represents as `Mul(a, Pow(b, -1))`. -/
def divE (a b : GExpr) : GExpr := mul a (powE b (-1))

/-- Model of sympy unary minus: on a rational literal sympy auto-evaluates to
the negated literal, otherwise it builds `Mul(-1, e)`. -/
def negE : GExpr → GExpr
  | num q => num (-q)
  | e => mul (num (-1)) e

/-- Does a basis (non-commutative) symbol occur anywhere in the expression?
sympy `is_commutative` is false exactly when a non-commutative symbol
occurs. -/
def occursB : GExpr → Bool
  | num _ => false
  | var _ => false
  | bvec _ => true
  | add a b => occursB a || occursB b
  | mul a b => occursB a || occursB b
  | powE a _ => occursB a
  | absE a => occursB a
  | signE a => occursB a
  | fapp _ _ => false
  | derivE a _ => occursB a

/-- Model of sympy `is_commutative`. -/
def isComm (e : GExpr) : Bool := !occursB e

/-- Model of sympy `is_number`: no free commutative symbol, no basis symbol,
no undefined function application occurs. -/
def isNumber : GExpr → Bool
  | num _ => true
  | var _ => false
  | bvec _ => false
  | add a b => isNumber a && isNumber b
  | mul a b => isNumber a && isNumber b
  | powE a _ => isNumber a
  | absE a => isNumber a
  | signE a => isNumber a
  | fapp _ _ => false
  | derivE _ _ => false

/-- Partial sign oracle for numeric expressions, mirroring how sympy decides
`expr > 0` on the numeric literals that reach such comparisons in
`metric.py`.  It is exact on rational literals; on composite numeric
expressions it follows the obvious sign rules. -/
def numGt0 : GExpr → Bool
  | num q => 0 < q
  | powE a _ => numGt0 a
  | absE a => numGt0 a
  | mul a b => numGt0 a == numGt0 b
  | add a b => numGt0 a && numGt0 b
  | _ => false

end GExpr

open GExpr

/-- The constant `half = Rational(1, 2)` of `metric.py`. -/
def half : GExpr := num (mkRat 1 2)

/-- Exact natural square root: the root when the input is a perfect square,
`none` otherwise (bounded linear search, so that it evaluates by kernel
reduction). -/
def natSqrtExact (n : ℕ) : Option ℕ := (List.range (n + 1)).find? fun r => r * r == n

/-- Square root of a nonnegative rational if it is a perfect square of a
rational. -/
def ratSqrt (q : ℚ) : Option ℚ :=
  if q < 0 then none
  else
    match natSqrtExact q.num.toNat, natSqrtExact q.den with
    | some rn, some rd => some (mkRat (rn : ℤ) rd)
    | _, _ => none

/-- Model of the sympy `sqrt` constructor: on a rational literal that is a
perfect square it auto-evaluates to the rational root (e.g. `sqrt(4) = 2`),
otherwise it builds `Pow(e, 1/2)`.  (sympy also extracts square factors,
e.g. `sqrt(8) = 2*sqrt(2)`; no claim depends on that refinement.) -/
def sympySqrt (e : GExpr) : GExpr :=
  match e with
  | num q =>
    match ratSqrt q with
    | some r => num r
    | none => powE (num q) (mkRat 1 2)
  | e => powE e (mkRat 1 2)

/-- The numeric branch of `square_root_of_expr` (`metric.py` lines 115-119):
`if expr > 0: return sqrt(expr) else: return sqrt(-expr)`. -/
def sqrt_of_number (e : GExpr) : GExpr :=
  if numGt0 e then sympySqrt e else sympySqrt (negE e)

/-- Test for `isinstance(expr, Add)`. -/
def isAdd : GExpr → Bool
  | .add _ _ => true
  | _ => false

/-- Flatten a sum tree into its list of addends, modelling the `args` of a
sympy `Add`. -/
def addends : GExpr → List GExpr
  | .add a b => addends a ++ addends b
  | e => [e]

/-- Flatten a product tree into its list of factors, modelling the `args` of
a sympy `Mul`. -/
def mulArgs : GExpr → List GExpr
  | .mul a b => mulArgs a ++ mulArgs b
  | e => [e]

/-- Rebuild a sum from a list of terms (used for reconstructed sums; the
empty sum is `0`). -/
def mkAdd (l : List GExpr) : GExpr := l.foldl GExpr.add (num 0)

/-- Model of sympy `Mul._from_args` on a list of commutative factors:
the empty product is `S(1)`, a singleton is the factor itself. -/
def mulFromArgs : List GExpr → GExpr
  | [] => num 1
  | [x] => x
  | x :: xs => xs.foldl GExpr.mul x

/-- Smart sum constructor mirroring sympy auto-evaluation of the zero cases
(only used inside `diff`, whose sympy counterpart returns auto-evaluated
expressions; in particular the derivative of a constant is the literal 0). -/
def addA (a b : GExpr) : GExpr :=
  if a = num 0 then b else if b = num 0 then a else .add a b

/-- Smart product constructor mirroring sympy auto-evaluation of the zero and
one cases (only used inside `diff`). -/
def mulA (a b : GExpr) : GExpr :=
  if a = num 0 ∨ b = num 0 then num 0
  else if a = num 1 then b else if b = num 1 then a else .mul a b

/-- Smart power constructor mirroring sympy auto-evaluation of the exponents
0 and 1 (only used inside `diff`). -/
def powA (a : GExpr) (q : ℚ) : GExpr :=
  if q = 0 then num 1 else if q = 1 then a else .powE a q

/-- Model of sympy `diff(e, x)` for the fragment used by `metric.py`:
structural partial differentiation with respect to the commutative symbol
`x`.  Derivatives of applied undefined functions stay unevaluated
(`Derivative`), the derivative of `Abs` is `sign` times the inner
derivative, and the a.e. zero derivative of `sign` is 0. -/
def diffE (e : GExpr) (x : ℕ) : GExpr :=
  match e with
  | .num _ => num 0
  | .var i => if i = x then num 1 else num 0
  | .bvec _ => num 0
  | .add a b => addA (diffE a x) (diffE b x)
  | .mul a b => addA (mulA (diffE a x) b) (mulA a (diffE b x))
  | .powE a q => mulA (mulA (num q) (powA a (q - 1))) (diffE a x)
  | .absE a => mulA (.signE a) (diffE a x)
  | .signE _ => num 0
  | .fapp f args => .derivE (.fapp f args) x
  | .derivE a i => .derivE (.derivE a i) x

/-- Simultaneous substitution of basis symbols (model of `expr.subs(renorm)`
where `renorm` maps reciprocal basis symbols to rescaled expressions). -/
def substB (s : List (ℕ × GExpr)) : GExpr → GExpr
  | .num q => .num q
  | .var i => .var i
  | .bvec i =>
    match s.lookup i with
    | some r => r
    | none => .bvec i
  | .add a b => .add (substB s a) (substB s b)
  | .mul a b => .mul (substB s a) (substB s b)
  | .powE a q => .powE (substB s a) q
  | .absE a => .absE (substB s a)
  | .signE a => .signE (substB s a)
  | .fapp f args => .fapp f args
  | .derivE a i => .derivE (substB s a) i

/-- The sympy routines `metric.py` calls as black boxes, collected in a
substrate record.  Proofs state the properties they rely on (semantics
preservation, commutativity preservation) as explicit hypotheses. -/
structure SymSub where
  expandS : GExpr → GExpr
  trigsimp : GExpr → GExpr
  sqf_list : GExpr → GExpr × List (GExpr × ℕ)
  simplifyS : GExpr → GExpr
  matInv : (ℕ → ℕ → GExpr) → ℕ → ℕ → ℕ → GExpr
  matAdjugate : (ℕ → ℕ → GExpr) → ℕ → ℕ → ℕ → GExpr

/-- A trivial concrete substrate used to instantiate witnesses: `expand`,
`trigsimp` and `simplify` are the identity and `sqf_list` is the trivial
square-free factorization `e = 1 * e^1` (this is what sympy returns on a
bare symbol). -/
def trivSub : SymSub where
  expandS := id
  trigsimp := id
  sqf_list := fun e => (num 1, [(e, 1)])
  simplifyS := id
  matInv := fun g _ i j => g i j
  matAdjugate := fun g _ i j => g i j

/-- Embedding of `linear_expand` (`metric.py` lines 42-79), `mode = True`.
The input is first expanded (sympy `expand`, substrate); if the result is the
literal zero the single pair `(0, S(1))` is returned.  Otherwise the additive
terms are scanned: a commutative term is folded into the coefficient of the
implicit scalar basis `S(1)`; otherwise the term is split by `args_cnc` into
its commutative factors (the coefficient) and its non-commutative factors, of
which only the first is used as the basis key.  Coefficients of equal bases
are summed in encounter order.  The grouped pairs are kept as a list of
`(base, coefficient)` pairs and returned as `(coefs, bases)`. -/
def insertPair (base coef : GExpr) : List (GExpr × GExpr) → List (GExpr × GExpr)
  | [] => [(base, coef)]
  | (b, c) :: rest =>
    if b = base then (b, .add c coef) :: rest else (b, c) :: insertPair base coef rest

/-- Processing of one additive term of the expanded expression in the
`linear_expand` loop. -/
def processTerm (acc : List (GExpr × GExpr)) (t : GExpr) : List (GExpr × GExpr) :=
  if isComm t then insertPair (num 1) t acc
  else
    insertPair ((((mulArgs t).filter fun f => !isComm f)).headD (num 1))
      (mulFromArgs ((mulArgs t).filter fun f => isComm f)) acc

def linear_expand (S : SymSub) (expr0 : GExpr) : List GExpr × List GExpr :=
  let expr := S.expandS expr0
  if expr = num 0 then ([num 0], [num 1])
  else if isAdd expr then
    let pairs := (addends expr).foldl processTerm []
    (pairs.map Prod.snd, pairs.map Prod.fst)
  else if isComm expr then ([expr], [num 1])
  else
    let pairs := processTerm [] expr
    (pairs.map Prod.snd, pairs.map Prod.fst)

/-- Reconstruction of an expression from the `(coefs, bases)` pairs of
`linear_expand`: the sum of `coefficient * basis` over all pairs. -/
def reconstructed (p : List GExpr × List GExpr) : GExpr :=
  mkAdd ((p.1.zip p.2).map fun cb => .mul cb.1 cb.2)

/-- Embedding of `Simp.apply` (`metric.py` lines 208-220) with the
process-wide pipeline `Simp.modes` modelled as the function `smp`: the
expression is decomposed by `linear_expand`, `smp` is applied to each
coefficient, and `sum(smp(coef) * base)` is rebuilt starting from `S(0)`. -/
def Simp_apply (S : SymSub) (smp : GExpr → GExpr) (e : GExpr) : GExpr :=
  let cb := linear_expand S e
  (cb.1.zip cb.2).foldl (fun obj p => .add obj (.mul (smp p.1) p.2)) (num 0)

/-- Embedding of `square_root_of_expr` (`metric.py` lines 107-134).  A number
yields the square root of its absolute value.  Otherwise the expression is
trig-simplified and square-free factorized; a non-unit numeric coefficient is
replaced by its square root (the recursive call `square_root_of_expr(coef)`
on a number executes only the numeric branch, inlined here as
`sqrt_of_number`), a non-numeric one by `sqrt(Abs(coef))`; the factor loop
multiplies even powers halved onto the coefficient and aborts with
`sqrt(Abs(expr))` at the first odd power.  (In the even branch the Python
exponent `n / 2` is a float; it is modelled by the rational `n / 2`.) -/
def sqfLoop (expr coef : GExpr) : List (GExpr × ℕ) → GExpr
  | [] => coef
  | (f, n) :: rest =>
    if n % 2 ≠ 0 then sympySqrt (absE expr)
    else sqfLoop expr (.mul coef (.powE f (mkRat (n : ℤ) 2))) rest

def square_root_of_expr (S : SymSub) (expr : GExpr) : GExpr :=
  if isNumber expr then sqrt_of_number expr
  else
    let expr := S.trigsimp expr
    let cp := S.sqf_list expr
    let coef :=
      if cp.1 ≠ num 1 then
        if isNumber cp.1 then sqrt_of_number cp.1 else sympySqrt (absE cp.1)
      else cp.1
    sqfLoop expr coef cp.2

/-- Decidable equality of `Except` results, used to evaluate the embedded
fallible routines on concrete inputs. -/
instance exceptDecEq {ε α : Type} [DecidableEq ε] [DecidableEq α] :
    DecidableEq (Except ε α) := fun x y =>
  match x, y with
  | .error e, .error f =>
    match decEq e f with
    | isTrue h => isTrue (h ▸ rfl)
    | isFalse h => isFalse fun hh => h (Except.error.inj hh)
  | .ok a, .ok b =>
    match decEq a b with
    | isTrue h => isTrue (h ▸ rfl)
    | isFalse h => isFalse fun hh => h (Except.ok.inj hh)
  | .error _, .ok _ => isFalse fun hh => Except.noConfusion hh
  | .ok _, .error _ => isFalse fun hh => Except.noConfusion hh

/-- Python exceptions raised by the modelled code paths. -/
inductive PyErr : Type where
  | valueError : String → PyErr
  | typeError : String → PyErr
  | attributeError : String → PyErr
deriving DecidableEq

/-- The dynamically typed `self.sig` field: either the raw hint (an integer
or one of the strings `e`, `m+`, `m-`) or the computed signature pair. -/
inductive SigVal : Type where
  | int : ℤ → SigVal
  | str : String → SigVal
  | pair : ℤ → ℤ → SigVal
deriving DecidableEq

/-- State of a `Metric` instance.  Fields that Python only assigns on some
code paths (`dg`, `de`, `e_norm`) are wrapped in an outer `Option` whose
`none` means the attribute was never assigned (reading it raises
`AttributeError`); for `de` and `e_norm` the inner `Option` distinguishes
the Python value `None` from an actual array.  Matrices are total functions
on index pairs (only indices below `n` are meaningful). -/
structure MetricState : Type where
  n : ℕ
  basis : List ℕ
  r_symbols : List ℕ
  coords : Option (List ℕ)
  g : ℕ → ℕ → GExpr
  g_raw : ℕ → ℕ → GExpr
  g_inv : Option (ℕ → ℕ → GExpr)
  g_adj : Option (ℕ → ℕ → GExpr)
  detg : Option GExpr
  gsym : Option String
  dg : Option (List (List (List GExpr)))
  connect_flg : Bool
  de : Option (Option (List (List GExpr)))
  e_norm : Option (Option (List GExpr))
  is_ortho : Bool
  g_is_numeric : Bool
  sig : SigVal
  norm : Bool
  e_sq_sgn : Option String

/-- Access `dg[i][j][k]` in a rank-3 list array. -/
def dgGet (dgl : List (List (List GExpr))) (i j k : ℕ) : GExpr :=
  ((dgl.getD i []).getD j []).getD k (num 0)

/-- Access `de[i][j]` in a rank-2 list array. -/
def deGet (del : List (List GExpr)) (i j : ℕ) : GExpr :=
  (del.getD i []).getD j (num 0)

/-- Embedding of `Metric.derivatives_of_g` (`metric.py` lines 376-385):
`dg[i][j][k] = diff(g[i, j], coords[k])`.  (Python would raise here if
`coords` were `None`; the method is only ever called with coordinates
present, and the model reads the empty coordinate list in that junk case.) -/
def derivatives_of_g (m : MetricState) : List (List (List GExpr)) :=
  let cs := m.coords.getD []
  (List.range m.n).map fun i =>
    (List.range m.n).map fun j =>
      cs.map fun x => diffE (m.g i j) x

/-- Embedding of the loop of `Metric.init_connect_flg` (`metric.py` lines
387-397): the connection flag ends up true exactly when some entry of `dg`
is not the literal zero (the `break` only leaves the innermost loop, which
does not change the final value of the flag). -/
def connectOf (dgl : List (List (List GExpr))) : Bool :=
  dgl.any fun pl => pl.any fun rl => rl.any fun e => !(e == num 0)

/-- The mode-1 (first kind) Christoffel array of
`Metric.Christoffel_symbols` (`metric.py` lines 461-479):
`dG[i][j][k] = Simp.apply(half * (dg[j][k][i] + dg[i][k][j] - dg[i][j][k]))`
built by the triple range comprehension, reading the stored `self.dg`. -/
def christoffel1 (S : SymSub) (smp : GExpr → GExpr) (m : MetricState) :
    List (List (List GExpr)) :=
  let dgl := m.dg.getD []
  (List.range m.n).map fun i =>
    (List.range m.n).map fun j =>
      (List.range m.n).map fun k =>
        Simp_apply S smp
          (.mul half (subE (.add (dgGet dgl j k i) (dgGet dgl i k j)) (dgGet dgl i j k)))

/-- Embedding of `Metric.inverse_metric` (`metric.py` lines 428-444).  The
method is memoized (`no-op` when `g_inv` is present).  In the orthogonal
branch the source reads `S(1)/self.g(i,i)`: it CALLS the sympy matrix
object `self.g` instead of subscripting it, so for any non-empty orthogonal
metric the first loop iteration raises
`TypeError: MutableDenseMatrix object is not callable`.  The non-orthogonal
branch inverts (or, with a `gsym` name, adjugates and divides by a
placeholder determinant function) via the substrate. -/
def inverse_metric (S : SymSub) (m : MetricState) : Except PyErr MetricState :=
  if m.g_inv.isSome then .ok m
  else if m.is_ortho then
    if m.n = 0 then .ok { m with g_inv := some fun i j => if i = j then num 1 else num 0 }
    else .error (.typeError "MutableDenseMatrix object is not callable")
  else
    match m.gsym with
    | none => .ok { m with g_inv := some fun i j => S.simplifyS (S.matInv m.g m.n i j) }
    | some s =>
      let detg := fapp ("|" ++ s ++ "|") (m.coords.getD [])
      let gadj := fun i j => S.simplifyS (S.matAdjugate m.g m.n i j)
      .ok { m with detg := some detg, g_adj := some gadj,
                   g_inv := some fun i j => divE (gadj i j) detg }

/-- Embedding of `Metric.Christoffel_symbols` (`metric.py` lines 446-501).
If the connection flag is false the method returns `None`; mode 1 yields the
first-kind array; mode 2 computes the first-kind array, forces the inverse
metric (which can raise) and contracts with it; any other mode raises
`ValueError`.  (The memoization of `g_inv` on the instance by mode 2 is not
propagated to the caller; no claim depends on it.) -/
def Christoffel_symbols (S : SymSub) (smp : GExpr → GExpr) (m : MetricState) (mode : ℤ) :
    Except PyErr (Option (List (List (List GExpr)))) :=
  if m.connect_flg = false then .ok none
  else if mode = 1 then .ok (some (christoffel1 S smp m))
  else if mode = 2 then
    let Gamma1 := christoffel1 S smp m
    match inverse_metric S m with
    | .error e => .error e
    | .ok m2 =>
      let gi := m2.g_inv.getD fun _ _ => num 0
      .ok (some ((List.range m.n).map fun i =>
        (List.range m.n).map fun j =>
          (List.range m.n).map fun k =>
            Simp_apply S smp
              ((((Gamma1.getD i []).getD j []).enum.map fun p =>
                  GExpr.mul p.2 (gi p.1 k)).foldl GExpr.add (num 0))))
  else .error (.valueError ("In Christoffle_symobols mode = " ++ toString mode ++
    " is not allowed"))

/-- Embedding of `Metric.derivatives_of_basis` (`metric.py` lines 399-426):
stores `dg`, recomputes the connection flag; if the metric is flat the
basis-derivative array is set to the Python value `None`; otherwise
`de[i][j] = sum(Gamma1[i][j][k] * r_symbols[k] for k)` (Python `sum` starts
from 0). -/
def derivatives_of_basis (S : SymSub) (smp : GExpr → GExpr) (m : MetricState) : MetricState :=
  let dgl := derivatives_of_g m
  let cf := connectOf dgl
  if cf = false then { m with dg := some dgl, connect_flg := false, de := some none }
  else
    let m1 := { m with dg := some dgl, connect_flg := true }
    let dG := christoffel1 S smp m1
    let de := (List.range m.n).map fun i =>
      (List.range m.n).map fun j =>
        ((((dG.getD i []).getD j []).zip (m.r_symbols.map bvec)).map fun p =>
            GExpr.mul p.1 p.2).foldl GExpr.add (num 0)
    { m1 with de := some (some de) }

/-- Embedding of `Metric.normalize_metric` (`metric.py` lines 503-535).
Reading the never-assigned attribute `self.de` raises `AttributeError`;
when `de` is the Python value `None` the method returns immediately (in
particular the metric tensor is NOT rescaled in that case).  Otherwise the
reciprocal basis symbols are rescaled by their norms, each basis-derivative
entry is rewritten by the quotient rule and simplified, and finally every
metric entry is replaced by `Simp.apply(g[i,j] / (e_norm[i]*e_norm[j]))`.
Each mutated entry is read only once before being written, so the in-place
Python loops are modelled by batch updates. -/
def normalize_metric (S : SymSub) (smp : GExpr → GExpr) (m : MetricState) :
    Except PyErr MetricState :=
  match m.de with
  | none => .error (.attributeError "Metric object has no attribute de")
  | some none => .ok m
  | some (some deArr) =>
    match m.e_norm with
    | none => .error (.attributeError "Metric object has no attribute e_norm")
    | some none => .error (.typeError "NoneType object is not subscriptable")
    | some (some en) =>
      let cs := m.coords.getD []
      let enG := fun i => en.getD i (num 0)
      let renorm := (List.range m.n).map fun ib =>
        (m.r_symbols.getD ib 0, divE (bvec (m.r_symbols.getD ib 0)) (enG ib))
      let de2 := (List.range m.n).map fun xi =>
        (List.range m.n).map fun jb =>
          Simp_apply S smp (divE
            (subE (substB renorm (deGet deArr xi jb))
              (.mul (diffE (enG jb) (cs.getD xi 0)) (bvec (m.basis.getD jb 0))))
            (enG jb))
      let g2 := fun i j =>
        if i < m.n ∧ j < m.n then
          Simp_apply S smp (divE (m.g i j) (.mul (enG i) (enG j)))
        else m.g i j
      .ok { m with de := some (some de2), g := g2 }

/-- The list of diagonal metric entries. -/
def diagList (m : MetricState) : List GExpr := (List.range m.n).map fun i => m.g i i

/-- The counting loop of `Metric.signature` (`metric.py` lines 539-549):
positive and non-positive numeric diagonal entries are counted until the
first non-numeric entry breaks the loop, so `p + q` is the length of the
maximal numeric prefix of the diagonal. -/
def countPQ : List GExpr → ℕ × ℕ
  | [] => (0, 0)
  | e :: rest =>
    if isNumber e then
      let pq := countPQ rest
      if numGt0 e then (pq.1 + 1, pq.2) else (pq.1, pq.2 + 1)
    else (0, 0)

/-- Does the first block of `Metric.signature` resolve the signature from
the numeric orthogonal diagonal (`metric.py` lines 538-552)?  When false the
resolver falls through to the hint. -/
def resolvesFromDiag (m : MetricState) : Bool :=
  m.is_ortho && ((countPQ (diagList m)).1 + (countPQ (diagList m)).2 == m.n)

/-- Embedding of `Metric.signature` (`metric.py` lines 537-569).  The result
is the new value of `self.sig` or the raised `ValueError`. -/
def signature (m : MetricState) : Except PyErr SigVal :=
  if resolvesFromDiag m then
    .ok (.pair ((countPQ (diagList m)).1 : ℤ) ((countPQ (diagList m)).2 : ℤ))
  else
    match m.sig with
    | .int k =>
      if k ≤ (m.n : ℤ) then .ok (.pair k ((m.n : ℤ) - k))
      else .error (.valueError ("self.sig = " ++ toString k ++
        " > self.n, not an allowed hint"))
    | .str s =>
      if s = "e" then .ok (.pair (m.n : ℤ) 0)
      else if s = "m+" then .ok (.pair ((m.n : ℤ) - 1) 1)
      else if s = "m-" then .ok (.pair 1 ((m.n : ℤ) - 1))
      else .error (.valueError ("self.sig = " ++ s ++ " is not an allowed hint"))
    | .pair p q =>
      .error (.valueError ("(" ++ toString p ++ ", " ++ toString q ++
        ") is not allowed value for self.sig"))

/-- The configuration of a `Metric` construction, after the out-of-scope
pre-processing (basis-string parsing and the metric-tensor input dispatch of
`metric.py` lines 611-682) has produced the basis symbols and the metric
matrix `gIn`.  `n = len(basis)`. -/
structure InitArgs : Type where
  n : ℕ
  basis : List ℕ
  r_symbols : List ℕ
  gIn : ℕ → ℕ → GExpr
  coords : Option (List ℕ)
  norm : Bool
  sig : SigVal
  gsym : Option String

/-- The error message of `metric.py` lines 713 and 726 (identical in both
places, with the apostrophes of the original replaced for exclamation
context). -/
def normErrMsg : String := "!!!!Basis normalization only implemented for orthogonal basis!!!!"

/-- The orthogonality scan of `Metric.__init__` (`metric.py` lines 691-698):
true iff every strict upper-triangular entry is the literal zero (the
`break` only leaves the inner loop and cannot reset the flag). -/
def initOrtho (a : InitArgs) : Bool :=
  (List.range a.n).all fun i => (List.range a.n).all fun j =>
    !(decide (i < j)) || (a.gIn i j == num 0)

/-- The numericity scan of `Metric.__init__` (`metric.py` lines 700-707):
true iff every strict upper-triangular entry is a pure number. -/
def initNumeric (a : InitArgs) : Bool :=
  (List.range a.n).all fun i => (List.range a.n).all fun j =>
    !(decide (i < j)) || isNumber (a.gIn i j)

/-- The instance state right after the flag scans of `Metric.__init__`
(`metric.py` line 707): `dg`, `de` and `e_norm` are still unassigned
attributes, the connection flag is provisionally set from the presence of
coordinates (lines 600-603). -/
def initState0 (a : InitArgs) : MetricState :=
  { n := a.n, basis := a.basis, r_symbols := a.r_symbols, coords := a.coords,
    g := a.gIn, g_raw := a.gIn, g_inv := none, g_adj := none, detg := none,
    gsym := a.gsym, dg := none, connect_flg := a.coords.isSome, de := none,
    e_norm := none, is_ortho := initOrtho a, g_is_numeric := initNumeric a,
    sig := a.sig, norm := a.norm, e_sq_sgn := none }

/-- The coordinate block of `Metric.__init__` (`metric.py` lines 709-720):
with coordinates present the basis derivatives are computed; if
normalization is requested it is rejected for a non-orthogonal metric and
otherwise the per-direction norms `e_norm[i] = square_root_of_expr(g[i,i])`
are taken; without normalization `e_norm` is set to the Python `None`;
without coordinates nothing happens (in particular `e_norm` and `de` stay
unassigned). -/
def initStep1 (S : SymSub) (smp : GExpr → GExpr) (a : InitArgs) :
    Except PyErr MetricState :=
  match a.coords with
  | some _ =>
    let mA := derivatives_of_basis S smp (initState0 a)
    if a.norm then
      if mA.is_ortho = false then .error (.valueError normErrMsg)
      else
        let enl := (List.range a.n).map fun i => square_root_of_expr S (mA.g i i)
        .ok { mA with e_norm := some (some enl) }
    else .ok { mA with e_norm := some none }
  | none => .ok (initState0 a)

/-- The normalization block of `Metric.__init__` (`metric.py` lines
722-726): it runs whenever `norm` was requested, also without coordinates. -/
def initStep2 (S : SymSub) (smp : GExpr → GExpr) (a : InitArgs) (m1 : MetricState) :
    Except PyErr MetricState :=
  if a.norm then
    if m1.is_ortho then normalize_metric S smp m1
    else .error (.valueError normErrMsg)
  else .ok m1

/-- The signature block of `Metric.__init__` (`metric.py` lines 728-733):
only when the metric is NOT fully numeric is the signature resolved and the
sign of the squared pseudo-scalar derived from it. -/
def initStep3 (m2 : MetricState) : Except PyErr MetricState :=
  if m2.g_is_numeric = false then
    match signature m2 with
    | .error e => .error e
    | .ok sv =>
      let q : ℤ := match sv with | .pair _ q => q | _ => 0
      let sgn := if (((m2.n * (m2.n - 1) : ℤ)) / 2 + q) % 2 = 1 then "-" else "+"
      .ok { m2 with sig := sv, e_sq_sgn := some sgn }
  else .ok m2

/-- Embedding of the tail of `Metric.__init__` (`metric.py` lines 597-736)
from the point where the metric matrix has been built, as the composition of
the three stages above. -/
def metricInit (S : SymSub) (smp : GExpr → GExpr) (a : InitArgs) :
    Except PyErr MetricState :=
  match initStep1 S smp a with
  | .error e => .error e
  | .ok m1 =>
    match initStep2 S smp a m1 with
    | .error e => .error e
    | .ok m2 => initStep3 m2

/-- Number of non-commutative factors of an (expanded) term, the quantity
`len(nc)` of the `args_cnc` split in `linear_expand`. -/
def ncCount (t : GExpr) : ℕ := ((mulArgs t).filter fun f => !isComm f).length

/-- Interpretation of embedded expressions in the free module over `ℝ`
spanned by words of non-commutative atoms: `sem σ e w` is the coefficient of
the word `w` in the value of `e` under the assignment `σ` of the commutative
symbols.  Scalars live on the empty word; a product is the convolution over
all splits of the word; `powE`, `absE` and `signE` only act on the scalar
part (they are only ever applied to scalars in `metric.py`); applied
undefined functions and unevaluated derivatives are outside the semantic
fragment the claims use and are interpreted as zero. -/
noncomputable def sem (σ : ℕ → ℝ) : GExpr → List ℕ → ℝ
  | .num q, w => if w = [] then (q : ℝ) else 0
  | .var i, w => if w = [] then σ i else 0
  | .bvec i, w => if w = [i] then 1 else 0
  | .add a b, w => sem σ a w + sem σ b w
  | .mul a b, w =>
    ((List.range (w.length + 1)).map fun t => sem σ a (w.take t) * sem σ b (w.drop t)).sum
  | .powE a q, w => if w = [] then (sem σ a []) ^ (q : ℝ) else 0
  | .absE a, w => if w = [] then |sem σ a []| else 0
  | .signE a, w => if w = [] then Real.sign (sem σ a []) else 0
  | .fapp _ _, _ => 0
  | .derivE _ _, _ => 0

/-- Semantic equality of embedded expressions: this models equality of the
corresponding sympy values (sympy `==` identifies expressions that differ
only by the order of commutative sums and products, which `sem` quotients
out). -/
def sEq (a b : GExpr) : Prop := ∀ (σ : ℕ → ℝ) (w : List ℕ), sem σ a w = sem σ b w

/-- Total semantic weight of the grouped `(base, coefficient)` pairs of the
`linear_expand` loop, as the sum of `coefficient * base`. -/
noncomputable def pairsSum (σ : ℕ → ℝ) (w : List ℕ) (pairs : List (GExpr × GExpr)) : ℝ :=
  (pairs.map fun p => sem σ (.mul p.2 p.1) w).sum

/-- Construction arguments with default basis and reciprocal-basis atom
numbering, used by the concrete instances below. -/
def sampleArgs (n : ℕ) (gIn : ℕ → ℕ → GExpr) (coords : Option (List ℕ))
    (norm : Bool) (sg : SigVal) : InitArgs :=
  { n := n, basis := List.range n, r_symbols := (List.range n).map fun i => n + i,
    gIn := gIn, coords := coords, norm := norm, sig := sg, gsym := none }

/-- A one-dimensional orthogonal metric instance (`Metric("e", g=[1])`) with
no inverse computed yet. -/
def ortho1State : MetricState :=
  { n := 1, basis := [0], r_symbols := [1], coords := none,
    g := fun _ _ => num 1, g_raw := fun _ _ => num 1, g_inv := none, g_adj := none,
    detg := none, gsym := none, dg := none, connect_flg := false, de := none,
    e_norm := none, is_ortho := true, g_is_numeric := true, sig := .str "e",
    norm := false, e_sq_sgn := none }

/-- A four-dimensional non-orthogonal metric instance carrying the raw
integer signature hint `2`, on which the signature resolver must fall
through to the hint. -/
def hint4State : MetricState :=
  { n := 4, basis := [0, 1, 2, 3], r_symbols := [4, 5, 6, 7], coords := none,
    g := fun _ _ => num 1, g_raw := fun _ _ => num 1, g_inv := none, g_adj := none,
    detg := none, gsym := none, dg := none, connect_flg := false, de := none,
    e_norm := none, is_ortho := false, g_is_numeric := true, sig := .int 2,
    norm := false, e_sq_sgn := none }

/-- A one-dimensional position-dependent metric `g = [[x]]` on the
coordinate `x = var 0`, with its derivative array stored and a non-zero
connection. -/
def curved1State : MetricState :=
  { n := 1, basis := [0], r_symbols := [1], coords := some [0],
    g := fun _ _ => var 0, g_raw := fun _ _ => var 0, g_inv := none, g_adj := none,
    detg := none, gsym := none, dg := some [[[num 1]]], connect_flg := true,
    de := none, e_norm := none, is_ortho := true, g_is_numeric := true,
    sig := .str "e", norm := false, e_sq_sgn := none }

/-- Construction of a flat one-dimensional metric `g = [[2]]` with
coordinates and no normalization. -/
def flat1Args : InitArgs := sampleArgs 1 (fun _ _ => num 2) (some [0]) false (.str "e")

/-- Construction of a flat one-dimensional metric `g = [[2]]` with
coordinates and normalization requested. -/
def flatNormArgs : InitArgs := sampleArgs 1 (fun _ _ => num 2) (some [0]) true (.str "e")

/-- Construction from the explicit non-symmetric matrix `[[1, 2], [3, 1]]`
(the explicit-matrix input path performs no symmetry check). -/
def asymArgs : InitArgs :=
  sampleArgs 2
    (fun i j => if i = 0 ∧ j = 1 then num 2 else if i = 1 ∧ j = 0 then num 3 else num 1)
    none false (.str "e")

/-- Construction of a symmetric non-numeric diagonal metric
`[[ (e0.e0), 0], [0, (e0.e0)]]` with a commutative symbolic diagonal. -/
def symDiagArgs : InitArgs :=
  sampleArgs 2 (fun i j => if i = j then var 5 else num 0) none false (.str "e")

/-- Construction of a fully numeric two-dimensional Euclidean metric with
the raw signature hint `m+`. -/
def numericArgs : InitArgs :=
  sampleArgs 2 (fun i j => if i = j then num 1 else num 0) none false (.str "m+")

/-- Construction of a coordinate-free orthogonal metric with normalization
requested (`Metric("e1 e2", g=[1], norm=True)` with `coords=None`). -/
def normNoCoordsArgs : InitArgs := sampleArgs 1 (fun _ _ => num 1) none true (.str "e")

theorem sem_num (σ : ℕ → ℝ) (q : ℚ) (w : List ℕ) :
    sem σ (num q) w = if w = [] then (q : ℝ) else 0 := rfl

theorem sem_var (σ : ℕ → ℝ) (i : ℕ) (w : List ℕ) :
    sem σ (var i) w = if w = [] then σ i else 0 := rfl

theorem sem_bvec (σ : ℕ → ℝ) (i : ℕ) (w : List ℕ) :
    sem σ (bvec i) w = if w = [i] then 1 else 0 := rfl

theorem sem_add (σ : ℕ → ℝ) (a b : GExpr) (w : List ℕ) :
    sem σ (.add a b) w = sem σ a w + sem σ b w := rfl

theorem sem_mul (σ : ℕ → ℝ) (a b : GExpr) (w : List ℕ) :
    sem σ (.mul a b) w =
      ((List.range (w.length + 1)).map fun t => sem σ a (w.take t) * sem σ b (w.drop t)).sum :=
  rfl

theorem sem_powE (σ : ℕ → ℝ) (a : GExpr) (q : ℚ) (w : List ℕ) :
    sem σ (.powE a q) w = if w = [] then (sem σ a []) ^ (q : ℝ) else 0 := rfl

theorem sem_absE (σ : ℕ → ℝ) (a : GExpr) (w : List ℕ) :
    sem σ (.absE a) w = if w = [] then |sem σ a []| else 0 := rfl

theorem sem_signE (σ : ℕ → ℝ) (a : GExpr) (w : List ℕ) :
    sem σ (.signE a) w = if w = [] then Real.sign (sem σ a []) else 0 := rfl

theorem sem_mul_nil (σ : ℕ → ℝ) (a b : GExpr) :
    sem σ (.mul a b) [] = sem σ a [] * sem σ b [] := by
  simp [sem_mul]

/-- Commutative expressions are supported on the empty word. -/
theorem sem_comm_support (σ : ℕ → ℝ) :
    ∀ (a : GExpr), isComm a = true → ∀ w : List ℕ, w ≠ [] → sem σ a w = 0 := by
  intro a
  induction a with
  | num q => intro _ w hw; simp [sem_num, hw]
  | var i => intro _ w hw; simp [sem_var, hw]
  | bvec i => intro h; simp [isComm, occursB] at h
  | add a b iha ihb =>
    intro h w hw
    simp only [isComm, occursB, Bool.not_eq_true', Bool.or_eq_false_iff] at h
    have ha : isComm a = true := by simp [isComm, h.1]
    have hb : isComm b = true := by simp [isComm, h.2]
    simp [sem_add, iha ha w hw, ihb hb w hw]
  | mul a b iha ihb =>
    intro h w hw
    simp only [isComm, occursB, Bool.not_eq_true', Bool.or_eq_false_iff] at h
    have ha : isComm a = true := by simp [isComm, h.1]
    have hb : isComm b = true := by simp [isComm, h.2]
    rw [sem_mul]
    refine List.sum_eq_zero ?_
    intro x hx
    obtain ⟨t, _, rfl⟩ := List.mem_map.mp hx
    rcases eq_or_ne (w.take t) [] with h1 | h1
    · rcases eq_or_ne (w.drop t) [] with h2 | h2
      · exact absurd (by rw [← List.take_append_drop t w, h1, h2]; rfl) hw
      · rw [ihb hb _ h2, mul_zero]
    · rw [iha ha _ h1, zero_mul]
  | powE a q iha => intro _ w hw; simp [sem_powE, hw]
  | absE a iha => intro _ w hw; simp [sem, hw]
  | signE a iha => intro _ w hw; simp [sem, hw]
  | fapp f args => intro _ w _; simp [sem]
  | derivE a i iha => intro _ w _; simp [sem]

/-- Multiplication by a commutative expression on the left is scalar
multiplication of the word-coefficient function. -/
theorem sem_mul_scalar_left (σ : ℕ → ℝ) (a b : GExpr) (ha : isComm a = true)
    (w : List ℕ) : sem σ (.mul a b) w = sem σ a [] * sem σ b w := by
  rw [sem_mul, List.range_succ_eq_map, List.map_cons]
  simp only [List.take_zero, List.drop_zero, List.sum_cons, List.map_map]
  have hz : ((List.range w.length).map
      ((fun t => sem σ a (w.take t) * sem σ b (w.drop t)) ∘ Nat.succ)).sum = 0 := by
    refine List.sum_eq_zero ?_
    intro x hx
    obtain ⟨u, hu, rfl⟩ := List.mem_map.mp hx
    have hlen := List.mem_range.mp hu
    have htake : w.take (Nat.succ u) ≠ [] := by
      rw [Ne, List.take_eq_nil_iff]
      rintro (h | h)
      · exact Nat.succ_ne_zero u h
      · rw [h] at hlen; simp at hlen
    simp only [Function.comp_apply]
    rw [sem_comm_support σ a ha _ htake, zero_mul]
  rw [hz, add_zero]

/-- Multiplication by a commutative expression on the right is scalar
multiplication of the word-coefficient function. -/
theorem sem_mul_scalar_right (σ : ℕ → ℝ) (a b : GExpr) (hb : isComm b = true)
    (w : List ℕ) : sem σ (.mul a b) w = sem σ a w * sem σ b [] := by
  rw [sem_mul, show w.length + 1 = Nat.succ w.length from rfl, List.range_succ,
    List.map_append, List.sum_append]
  simp only [List.map_cons, List.map_nil, List.take_length, List.drop_length,
    List.sum_cons, List.sum_nil, add_zero]
  have : ((List.range w.length).map fun t => sem σ a (w.take t) * sem σ b (w.drop t)).sum
      = 0 := by
    refine List.sum_eq_zero ?_
    intro x hx
    obtain ⟨t, ht, rfl⟩ := List.mem_map.mp hx
    have hlen := List.mem_range.mp ht
    have hdrop : w.drop t ≠ [] := by
      rw [Ne, List.drop_eq_nil_iff]
      omega
    rw [sem_comm_support σ b hb _ hdrop, mul_zero]
  rw [this, zero_add]

/-- Left distributivity of the convolution product over sums. -/
theorem sem_mul_add_left (σ : ℕ → ℝ) (x y z : GExpr) (w : List ℕ) :
    sem σ (.mul (.add x y) z) w = sem σ (.mul x z) w + sem σ (.mul y z) w := by
  simp only [sem_mul, sem_add, add_mul]
  exact List.sum_map_add

/-- Right distributivity of the convolution product over sums. -/
theorem sem_mul_add_right (σ : ℕ → ℝ) (x y z : GExpr) (w : List ℕ) :
    sem σ (.mul x (.add y z)) w = sem σ (.mul x y) w + sem σ (.mul x z) w := by
  simp only [sem_mul, sem_add, mul_add]
  exact List.sum_map_add

theorem sem_foldl_add (σ : ℕ → ℝ) (w : List ℕ) (l : List GExpr) :
    ∀ acc : GExpr, sem σ (l.foldl GExpr.add acc) w
      = sem σ acc w + (l.map fun e => sem σ e w).sum := by
  induction l with
  | nil => intro acc; simp
  | cons x xs ih =>
    intro acc
    rw [List.foldl_cons, ih, sem_add]
    simp [add_assoc]

theorem sem_mkAdd (σ : ℕ → ℝ) (w : List ℕ) (l : List GExpr) :
    sem σ (mkAdd l) w = (l.map fun e => sem σ e w).sum := by
  rw [mkAdd, sem_foldl_add]
  simp [sem_num]

theorem sem_addends (σ : ℕ → ℝ) (w : List ℕ) (e : GExpr) :
    ((addends e).map fun t => sem σ t w).sum = sem σ e w := by
  induction e with
  | add a b iha ihb =>
    rw [addends, List.map_append, List.sum_append, iha, ihb, sem_add]
  | num q => simp [addends]
  | var i => simp [addends]
  | bvec i => simp [addends]
  | mul a b iha ihb => simp [addends]
  | powE a q iha => simp [addends]
  | absE a iha => simp [addends]
  | signE a iha => simp [addends]
  | fapp f args => simp [addends]
  | derivE a i iha => simp [addends]

/-- A basis symbol occurs in an expression iff it occurs in one of its
product factors. -/
theorem occursB_mulArgs (t : GExpr) : occursB t = (mulArgs t).any occursB := by
  induction t with
  | mul a b iha ihb => rw [mulArgs, List.any_append, occursB, iha, ihb]
  | num q => simp [mulArgs, occursB]
  | var i => simp [mulArgs, occursB]
  | bvec i => simp [mulArgs, occursB]
  | add a b iha ihb => simp [mulArgs]
  | powE a q iha => simp [mulArgs]
  | absE a iha => simp [mulArgs]
  | signE a iha => simp [mulArgs]
  | fapp f args => simp [mulArgs, occursB]
  | derivE a i iha => simp [mulArgs]

/-- A basis symbol occurs in an expression iff it occurs in one of its
addends. -/
theorem occursB_addends (t : GExpr) : occursB t = (addends t).any occursB := by
  induction t with
  | add a b iha ihb => rw [addends, List.any_append, occursB, iha, ihb]
  | num q => simp [addends, occursB]
  | var i => simp [addends, occursB]
  | bvec i => simp [addends, occursB]
  | mul a b iha ihb => simp [addends]
  | powE a q iha => simp [addends]
  | absE a iha => simp [addends]
  | signE a iha => simp [addends]
  | fapp f args => simp [addends, occursB]
  | derivE a i iha => simp [addends]

theorem isComm_of_mulArgs (t : GExpr) (h : ∀ f ∈ mulArgs t, isComm f = true) :
    isComm t = true := by
  rw [isComm, occursB_mulArgs, Bool.not_eq_true']
  rw [List.any_eq_false]
  intro f hf
  have := h f hf
  rw [isComm, Bool.not_eq_true'] at this
  simp [this]

theorem mulArgs_isComm (t : GExpr) (h : isComm t = true) :
    ∀ f ∈ mulArgs t, isComm f = true := by
  rw [isComm, occursB_mulArgs, Bool.not_eq_true'] at h
  intro f hf
  rw [isComm, Bool.not_eq_true']
  rw [List.any_eq_false] at h
  simpa using h f hf

theorem addends_isComm (t : GExpr) (h : isComm t = true) :
    ∀ f ∈ addends t, isComm f = true := by
  rw [isComm, occursB_addends, Bool.not_eq_true'] at h
  intro f hf
  rw [isComm, Bool.not_eq_true']
  rw [List.any_eq_false] at h
  simpa using h f hf

theorem isComm_foldl_mul (l : List GExpr) :
    ∀ acc : GExpr, isComm acc = true → (∀ x ∈ l, isComm x = true) →
      isComm (l.foldl GExpr.mul acc) = true := by
  induction l with
  | nil => intro acc ha _; simpa using ha
  | cons x xs ih =>
    intro acc ha hl
    rw [List.foldl_cons]
    refine ih _ ?_ ?_
    · have hx := hl x (List.mem_cons_self x xs)
      rw [isComm, Bool.not_eq_true'] at ha hx ⊢
      simp [occursB, ha, hx]
    · intro y hy; exact hl y (List.mem_cons_of_mem x hy)

theorem isComm_mulFromArgs (l : List GExpr) (h : ∀ x ∈ l, isComm x = true) :
    isComm (mulFromArgs l) = true := by
  match l with
  | [] => simp [mulFromArgs, isComm, occursB]
  | [x] => exact h x (by simp)
  | x :: y :: ys =>
    rw [show mulFromArgs (x :: y :: ys) = (y :: ys).foldl GExpr.mul x from rfl]
    refine isComm_foldl_mul _ _ (h x (by simp)) ?_
    intro z hz; exact h z (by simp [hz])

theorem sem_foldl_mul_nil (σ : ℕ → ℝ) (l : List GExpr) :
    ∀ acc : GExpr, sem σ (l.foldl GExpr.mul acc) []
      = sem σ acc [] * (l.map fun x => sem σ x []).prod := by
  induction l with
  | nil => intro acc; simp
  | cons x xs ih =>
    intro acc
    rw [List.foldl_cons, ih, sem_mul_nil]
    simp [mul_assoc]

theorem sem_mulFromArgs_nil (σ : ℕ → ℝ) (l : List GExpr) :
    sem σ (mulFromArgs l) [] = (l.map fun x => sem σ x []).prod := by
  match l with
  | [] => simp [mulFromArgs, sem_num]
  | [x] => simp [mulFromArgs]
  | x :: y :: ys =>
    rw [show mulFromArgs (x :: y :: ys) = (y :: ys).foldl GExpr.mul x from rfl,
      sem_foldl_mul_nil]
    simp

/-- On the empty word, the interpretation of any expression is the product
of the interpretations of its factors. -/
theorem sem_nil_mulArgs_prod (σ : ℕ → ℝ) (t : GExpr) :
    sem σ t [] = ((mulArgs t).map fun x => sem σ x []).prod := by
  induction t with
  | mul a b iha ihb =>
    rw [sem_mul_nil, mulArgs, List.map_append, List.prod_append, iha, ihb]
  | num q => simp [mulArgs]
  | var i => simp [mulArgs]
  | bvec i => simp [mulArgs]
  | add a b iha ihb => simp [mulArgs]
  | powE a q iha => simp [mulArgs]
  | absE a iha => simp [mulArgs]
  | signE a iha => simp [mulArgs]
  | fapp f args => simp [mulArgs]
  | derivE a i iha => simp [mulArgs]

/-- The leaf case of the term-decomposition lemma: for a term that is its
own single factor, a singleton non-commutative filter forces the factor to
be the term itself and the commutative coefficient to be empty. -/
theorem sem_term_decomp_leaf (σ : ℕ → ℝ) (t f0 : GExpr) (hleaf : mulArgs t = [t])
    (hfil : ((mulArgs t).filter fun f => !isComm f) = [f0]) (w : List ℕ) :
    sem σ t w
      = sem σ (mulFromArgs ((mulArgs t).filter fun f => isComm f)) [] * sem σ f0 w := by
  rw [hleaf] at hfil ⊢
  by_cases hc : isComm t
  · rw [List.filter_singleton] at hfil
    simp [hc] at hfil
  · have hcf : isComm t = false := by simpa using hc
    rw [List.filter_singleton] at hfil
    simp only [hcf, Bool.not_false, cond_true] at hfil
    have hf0 : f0 = t := by simpa using hfil.symm
    subst hf0
    rw [List.filter_singleton]
    simp only [hcf, cond_false]
    simp [mulFromArgs, sem_num]

/-- Decomposition of an expanded term with exactly one non-commutative
factor: semantically the term is the product of its commutative coefficient
(on the empty word) and its unique non-commutative factor. -/
theorem sem_term_decomp (σ : ℕ → ℝ) :
    ∀ t f0 : GExpr, ((mulArgs t).filter fun f => !isComm f) = [f0] →
      ∀ w : List ℕ, sem σ t w
        = sem σ (mulFromArgs ((mulArgs t).filter fun f => isComm f)) [] * sem σ f0 w := by
  intro t
  induction t with
  | mul a b iha ihb =>
    intro f0 hfil w
    have hsplit : ((mulArgs a).filter fun f => !isComm f)
        ++ ((mulArgs b).filter fun f => !isComm f) = [f0] := by
      rw [← List.filter_append]
      exact hfil
    have hcsplit : ((mulArgs (.mul a b)).filter fun f => isComm f)
        = ((mulArgs a).filter fun f => isComm f) ++ ((mulArgs b).filter fun f => isComm f) := by
      rw [show mulArgs (GExpr.mul a b) = mulArgs a ++ mulArgs b from rfl, List.filter_append]
    cases hA : (mulArgs a).filter fun f => !isComm f with
    | nil =>
      have hB : ((mulArgs b).filter fun f => !isComm f) = [f0] := by
        rw [hA] at hsplit; simpa using hsplit
      have haC : isComm a = true := by
        refine isComm_of_mulArgs a ?_
        intro f hf
        by_contra hnc
        have : f ∈ ((mulArgs a).filter fun f => !isComm f) :=
          List.mem_filter.mpr ⟨hf, by simpa using hnc⟩
        rw [hA] at this
        simp at this
      have hAC : ((mulArgs a).filter fun f => isComm f) = mulArgs a :=
        List.filter_eq_self.mpr (mulArgs_isComm a haC)
      rw [sem_mul_scalar_left σ a b haC, ihb f0 hB w, hcsplit, hAC]
      simp only [sem_mulFromArgs_nil, List.map_append, List.prod_append]
      rw [sem_nil_mulArgs_prod σ a]
      ring
    | cons x xs =>
      rw [hA, List.cons_append] at hsplit
      injection hsplit with hxf htail
      have hxs : xs = [] := (List.append_eq_nil.mp htail).1
      have hBnil : ((mulArgs b).filter fun f => !isComm f) = [] :=
        (List.append_eq_nil.mp htail).2
      have hAf : ((mulArgs a).filter fun f => !isComm f) = [f0] := by
        rw [hA, hxs, hxf]
      have hbC : isComm b = true := by
        refine isComm_of_mulArgs b ?_
        intro f hf
        by_contra hnc
        have : f ∈ ((mulArgs b).filter fun f => !isComm f) :=
          List.mem_filter.mpr ⟨hf, by simpa using hnc⟩
        rw [hBnil] at this
        simp at this
      have hBC : ((mulArgs b).filter fun f => isComm f) = mulArgs b :=
        List.filter_eq_self.mpr (mulArgs_isComm b hbC)
      rw [sem_mul_scalar_right σ a b hbC, iha f0 hAf w, hcsplit, hBC]
      simp only [sem_mulFromArgs_nil, List.map_append, List.prod_append]
      rw [sem_nil_mulArgs_prod σ b]
      ring
  | num q => intro f0 hfil w; exact sem_term_decomp_leaf σ (num q) f0 rfl hfil w
  | var i => intro f0 hfil w; exact sem_term_decomp_leaf σ (var i) f0 rfl hfil w
  | bvec i => intro f0 hfil w; exact sem_term_decomp_leaf σ (bvec i) f0 rfl hfil w
  | add a b iha ihb =>
    intro f0 hfil w; exact sem_term_decomp_leaf σ (.add a b) f0 rfl hfil w
  | powE a q iha =>
    intro f0 hfil w; exact sem_term_decomp_leaf σ (.powE a q) f0 rfl hfil w
  | absE a iha => intro f0 hfil w; exact sem_term_decomp_leaf σ (.absE a) f0 rfl hfil w
  | signE a iha => intro f0 hfil w; exact sem_term_decomp_leaf σ (.signE a) f0 rfl hfil w
  | fapp f args =>
    intro f0 hfil w; exact sem_term_decomp_leaf σ (.fapp f args) f0 rfl hfil w
  | derivE a i iha =>
    intro f0 hfil w; exact sem_term_decomp_leaf σ (.derivE a i) f0 rfl hfil w

theorem pairsSum_nil (σ : ℕ → ℝ) (w : List ℕ) : pairsSum σ w [] = 0 := rfl

theorem pairsSum_cons (σ : ℕ → ℝ) (w : List ℕ) (b c : GExpr) (l : List (GExpr × GExpr)) :
    pairsSum σ w ((b, c) :: l) = sem σ (.mul c b) w + pairsSum σ w l := by
  simp [pairsSum]

/-- Folding a coefficient into the grouped pairs adds its semantic
contribution, independently of whether the base was already present. -/
theorem pairsSum_insertPair (σ : ℕ → ℝ) (w : List ℕ) :
    ∀ (acc : List (GExpr × GExpr)) (b c : GExpr),
      pairsSum σ w (insertPair b c acc) = pairsSum σ w acc + sem σ (.mul c b) w := by
  intro acc
  induction acc with
  | nil => intro b c; simp [insertPair, pairsSum]
  | cons p rest ih =>
    intro b c
    obtain ⟨b0, c0⟩ := p
    by_cases hb : b0 = b
    · rw [insertPair, if_pos hb, pairsSum_cons, pairsSum_cons, hb, sem_mul_add_left]
      ring
    · rw [insertPair, if_neg hb, pairsSum_cons, pairsSum_cons, ih]
      ring

/-- Processing one term with at most one non-commutative factor adds exactly
its semantic value to the grouped pairs. -/
theorem pairsSum_processTerm (σ : ℕ → ℝ) (w : List ℕ) (acc : List (GExpr × GExpr))
    (t : GExpr) (h : ncCount t ≤ 1) :
    pairsSum σ w (processTerm acc t) = pairsSum σ w acc + sem σ t w := by
  rw [processTerm]
  by_cases hc : isComm t
  · rw [if_pos hc, pairsSum_insertPair]
    congr 1
    rw [sem_mul_scalar_right σ t (num 1) (by simp [isComm, occursB]), sem_num]
    simp
  · rw [if_neg hc]
    have hcf : isComm t = false := by simpa using hc
    have hocc : occursB t = true := by simpa [isComm] using hcf
    have hge : 1 ≤ ncCount t := by
      rw [occursB_mulArgs] at hocc
      obtain ⟨f, hf, hfo⟩ := List.any_eq_true.mp hocc
      have hmem : f ∈ (mulArgs t).filter fun f => !isComm f :=
        List.mem_filter.mpr ⟨hf, by simp [isComm, hfo]⟩
      exact List.length_pos.mpr (List.ne_nil_of_mem hmem)
    have hone : ncCount t = 1 := le_antisymm h hge
    obtain ⟨f0, hf0⟩ := List.length_eq_one.mp hone
    rw [hf0, pairsSum_insertPair]
    congr 1
    rw [show ([f0].headD (num 1)) = f0 from rfl]
    have hcomm : isComm (mulFromArgs ((mulArgs t).filter fun f => isComm f)) = true :=
      isComm_mulFromArgs _ fun x hx => (List.mem_filter.mp hx).2
    rw [sem_mul_scalar_left σ _ f0 hcomm]
    exact (sem_term_decomp σ t f0 hf0 w).symm

/-- The grouping fold of `linear_expand` preserves total semantics, term by
term, provided every term has at most one non-commutative factor. -/
theorem pairsSum_foldl (σ : ℕ → ℝ) (w : List ℕ) :
    ∀ ts : List GExpr, (∀ t ∈ ts, ncCount t ≤ 1) →
      ∀ acc, pairsSum σ w (ts.foldl processTerm acc)
        = pairsSum σ w acc + (ts.map fun t => sem σ t w).sum := by
  intro ts
  induction ts with
  | nil => intro _ acc; simp
  | cons t ts ih =>
    intro h acc
    rw [List.foldl_cons, ih (fun x hx => h x (List.mem_cons_of_mem _ hx)),
      pairsSum_processTerm σ w acc t (h t (List.mem_cons_self _ _))]
    simp [add_assoc]

theorem zip_map_snd_fst (l : List (GExpr × GExpr)) :
    (l.map Prod.snd).zip (l.map Prod.fst) = l.map fun p => (p.2, p.1) := by
  induction l with
  | nil => rfl
  | cons p ps ih => simp [ih]

/-- The reconstruction `sum(coef * base)` of the grouped pairs has the pairs
as its total semantics. -/
theorem sem_reconstructed (σ : ℕ → ℝ) (w : List ℕ) (pairs : List (GExpr × GExpr)) :
    sem σ (reconstructed (pairs.map Prod.snd, pairs.map Prod.fst)) w
      = pairsSum σ w pairs := by
  rw [reconstructed]
  simp only [zip_map_snd_fst, sem_mkAdd, List.map_map]
  rw [pairsSum]
  congr 1

theorem addends_of_not_isAdd (e : GExpr) (h : isAdd e = false) : addends e = [e] := by
  cases e <;> first | rfl | simp [isAdd] at h

theorem addends_ne_nil (e : GExpr) : addends e ≠ [] := by
  induction e with
  | add a b iha ihb =>
    rw [addends]
    intro h
    exact iha (List.append_eq_nil.mp h).1
  | num q => simp [addends]
  | var i => simp [addends]
  | bvec i => simp [addends]
  | mul a b iha ihb => simp [addends]
  | powE a q iha => simp [addends]
  | absE a iha => simp [addends]
  | signE a iha => simp [addends]
  | fapp f args => simp [addends]
  | derivE a i iha => simp [addends]

/-- Folding commutative terms only ever grows the single scalar-basis pair,
by summing the terms onto its coefficient in order. -/
theorem foldl_comm_acc (ts : List GExpr) :
    ∀ c : GExpr, (∀ t ∈ ts, isComm t = true) →
      ts.foldl processTerm [(num 1, c)] = [(num 1, ts.foldl GExpr.add c)] := by
  induction ts with
  | nil => intro c _; rfl
  | cons t ts ih =>
    intro c h
    rw [List.foldl_cons, processTerm, if_pos (h t (List.mem_cons_self _ _))]
    rw [show insertPair (num 1) t [(num 1, c)] = [(num 1, .add c t)] from by
      rw [insertPair, if_pos rfl]]
    rw [List.foldl_cons]
    exact ih _ fun x hx => h x (List.mem_cons_of_mem _ hx)

/-- On an input whose expansion is commutative, `linear_expand` returns a
single coefficient over the scalar basis `S(1)`, semantically equal to the
expanded input. -/
theorem linear_expand_comm (S : SymSub) (a : GExpr) (hc : isComm (S.expandS a) = true) :
    ∃ c : GExpr, linear_expand S a = ([c], [num 1])
      ∧ ∀ (σ : ℕ → ℝ) (w : List ℕ), sem σ c w = sem σ (S.expandS a) w := by
  rw [linear_expand]
  revert hc
  generalize S.expandS a = E
  intro hc
  by_cases h0 : E = num 0
  · rw [if_pos h0]
    exact ⟨num 0, rfl, fun σ w => by rw [h0]⟩
  · rw [if_neg h0]
    by_cases hadd : isAdd E
    · rw [if_pos hadd]
      have hterms : ∀ t ∈ addends E, isComm t = true := addends_isComm _ hc
      obtain ⟨t0, rest, hts⟩ : ∃ t0 rest, addends E = t0 :: rest := by
        cases h : addends E with
        | nil => exact absurd h (addends_ne_nil _)
        | cons t0 rest => exact ⟨t0, rest, rfl⟩
      refine ⟨rest.foldl GExpr.add t0, ?_, ?_⟩
      · rw [hts, List.foldl_cons, processTerm,
          if_pos (hterms t0 (by rw [hts]; exact List.mem_cons_self _ _))]
        rw [show insertPair (num 1) t0 [] = [(num 1, t0)] from rfl]
        rw [foldl_comm_acc rest t0 fun x hx => hterms x (by rw [hts]; simp [hx])]
        rfl
      · intro σ w
        rw [sem_foldl_add, ← sem_addends σ w E, hts]
        simp
    · rw [if_neg hadd, if_pos hc]
      exact ⟨E, rfl, fun σ w => rfl⟩

/-- The simplifier application commutes with semantic equality on
commutative arguments, provided the pipeline respects semantic equality. -/
theorem Simp_apply_sEq_of_comm (S : SymSub) (smp : GExpr → GExpr) (a b : GExpr)
    (hsimp : ∀ x y, sEq x y → sEq (smp x) (smp y))
    (ha : isComm (S.expandS a) = true) (hb : isComm (S.expandS b) = true)
    (hab : sEq (S.expandS a) (S.expandS b)) :
    sEq (Simp_apply S smp a) (Simp_apply S smp b) := by
  obtain ⟨c, hle, hsem⟩ := linear_expand_comm S a ha
  obtain ⟨c2, hle2, hsem2⟩ := linear_expand_comm S b hb
  have e1 : Simp_apply S smp a = .add (num 0) (.mul (smp c) (num 1)) := by
    rw [Simp_apply, hle]
    rfl
  have e2 : Simp_apply S smp b = .add (num 0) (.mul (smp c2) (num 1)) := by
    rw [Simp_apply, hle2]
    rfl
  intro σ w
  have hcc : sEq c c2 := fun σ w => by rw [hsem, hsem2]; exact hab σ w
  have hs := hsimp c c2 hcc σ w
  rw [e1, e2, sem_add, sem_add,
    sem_mul_scalar_right σ _ _ (by simp [isComm, occursB]),
    sem_mul_scalar_right σ _ _ (by simp [isComm, occursB]), hs]

theorem getD_map_range {α : Type} (f : ℕ → α) (n i : ℕ) (hi : i < n) (d : α) :
    ((List.range n).map f).getD i d = f i := by
  rw [List.getD_eq_getElem _ d (by simpa using hi)]
  simp

theorem getD_map_list {α β : Type} (l : List α) (f : α → β) (k : ℕ) (hk : k < l.length)
    (d : β) (d2 : α) : (l.map f).getD k d = f (l.getD k d2) := by
  rw [List.getD_eq_getElem _ d (by simpa using hk), List.getD_eq_getElem _ d2 hk]
  simp

/-- Entry extraction for the stored derivative array: for indices in range,
`dg[i][j][k]` is the partial derivative of `g[i, j]` by the `k`-th
coordinate. -/
theorem dgGet_derivatives_of_g (m : MetricState) (cs : List ℕ) (hcs : m.coords = some cs)
    (i j k : ℕ) (hi : i < m.n) (hj : j < m.n) (hk : k < cs.length) :
    dgGet (derivatives_of_g m) i j k = diffE (m.g i j) (cs.getD k 0) := by
  rw [dgGet, derivatives_of_g, hcs]
  rw [show (some cs).getD [] = cs from rfl]
  rw [getD_map_range _ m.n i hi, getD_map_range _ m.n j hj]
  exact getD_map_list cs _ k hk (num 0) 0

/-- Entry extraction for the first-kind Christoffel array. -/
theorem christoffel1_entry (S : SymSub) (smp : GExpr → GExpr) (m : MetricState)
    (i j k : ℕ) (hi : i < m.n) (hj : j < m.n) (hk : k < m.n) :
    dgGet (christoffel1 S smp m) i j k
      = Simp_apply S smp (.mul half
          (subE (.add (dgGet (m.dg.getD []) j k i) (dgGet (m.dg.getD []) i k j))
            (dgGet (m.dg.getD []) i j k))) := by
  rw [dgGet, christoffel1]
  rw [getD_map_range _ m.n i hi, getD_map_range _ m.n j hj, getD_map_range _ m.n k hk]

/-- Flatness: if every in-range entry of `g` has literally zero derivative
with respect to every coordinate, the computed connection flag is false. -/
theorem connectOf_derivatives_eq_false (m : MetricState) (cs : List ℕ)
    (hcs : m.coords = some cs)
    (h : ∀ i j, i < m.n → j < m.n → ∀ x ∈ cs, diffE (m.g i j) x = num 0) :
    connectOf (derivatives_of_g m) = false := by
  rw [connectOf, List.any_eq_false]
  intro pl hpl
  rw [derivatives_of_g, hcs] at hpl
  rw [show (some cs).getD [] = cs from rfl] at hpl
  obtain ⟨i, hi, rfl⟩ := List.mem_map.mp hpl
  rw [Bool.not_eq_true, List.any_eq_false]
  intro rl hrl
  obtain ⟨j, hj, rfl⟩ := List.mem_map.mp hrl
  rw [Bool.not_eq_true, List.any_eq_false]
  intro e he
  obtain ⟨x, hx, rfl⟩ := List.mem_map.mp he
  simp [h i j (List.mem_range.mp hi) (List.mem_range.mp hj) x hx]

theorem occursB_negE (e : GExpr) : occursB (negE e) = occursB e := by
  cases e <;> simp [negE, occursB]

theorem occursB_sympySqrt (e : GExpr) : occursB (sympySqrt e) = occursB e := by
  cases e with
  | num q =>
    rw [sympySqrt]
    cases ratSqrt q <;> simp [occursB]
  | var i => simp [sympySqrt, occursB]
  | bvec i => simp [sympySqrt, occursB]
  | add a b => simp [sympySqrt, occursB]
  | mul a b => simp [sympySqrt, occursB]
  | powE a q => simp [sympySqrt, occursB]
  | absE a => simp [sympySqrt, occursB]
  | signE a => simp [sympySqrt, occursB]
  | fapp f args => simp [sympySqrt, occursB]
  | derivE a i => simp [sympySqrt, occursB]

theorem occursB_sqrt_of_number (e : GExpr) : occursB (sqrt_of_number e) = occursB e := by
  rw [sqrt_of_number]
  by_cases h : numGt0 e
  · rw [if_pos h, occursB_sympySqrt]
  · rw [if_neg h, occursB_sympySqrt, occursB_negE]

theorem isComm_sqfLoop (expr : GExpr) (hexpr : isComm expr = true) :
    ∀ (l : List (GExpr × ℕ)) (coef : GExpr), isComm coef = true →
      (∀ p ∈ l, isComm p.1 = true) → isComm (sqfLoop expr coef l) = true := by
  intro l
  induction l with
  | nil => intro coef hcoef _; simpa [sqfLoop] using hcoef
  | cons p rest ih =>
    intro coef hcoef hl
    obtain ⟨f, n⟩ := p
    rw [sqfLoop]
    by_cases hodd : n % 2 ≠ 0
    · rw [if_pos hodd, isComm, occursB_sympySqrt]
      simpa [isComm, occursB] using hexpr
    · rw [if_neg hodd]
      refine ih _ ?_ fun q hq => hl q (List.mem_cons_of_mem _ hq)
      have hf := hl (f, n) (List.mem_cons_self _ _)
      rw [isComm, Bool.not_eq_true'] at hcoef hf ⊢
      simp [occursB, hcoef, hf]

/-- The square-root resolver preserves commutativity, provided the substrate
routines it calls do. -/
theorem isComm_square_root_of_expr (S : SymSub)
    (hT : ∀ x, isComm x = true → isComm (S.trigsimp x) = true)
    (hQ1 : ∀ x, isComm x = true → isComm (S.sqf_list x).1 = true)
    (hQ2 : ∀ x, isComm x = true → ∀ p ∈ (S.sqf_list x).2, isComm p.1 = true)
    (e : GExpr) (he : isComm e = true) : isComm (square_root_of_expr S e) = true := by
  rw [square_root_of_expr]
  by_cases hn : isNumber e
  · rw [if_pos hn, isComm, occursB_sqrt_of_number]
    simpa [isComm] using he
  · rw [if_neg hn]
    have htc : isComm (S.trigsimp e) = true := hT e he
    refine isComm_sqfLoop _ htc _ _ ?_ (hQ2 _ htc)
    by_cases h1 : (S.sqf_list (S.trigsimp e)).1 ≠ num 1
    · rw [if_pos h1]
      by_cases h2 : isNumber (S.sqf_list (S.trigsimp e)).1
      · rw [if_pos h2, isComm, occursB_sqrt_of_number]
        have := hQ1 _ htc
        simpa [isComm] using this
      · rw [if_neg h2, isComm, occursB_sympySqrt]
        have := hQ1 _ htc
        simpa [isComm, occursB] using this
    · rw [if_neg h1]
      exact hQ1 _ htc

/-- The square-free factor loop aborts with the square root of the absolute
value of the (simplified) expression at the first odd exponent. -/
theorem sqfLoop_odd (expr : GExpr) :
    ∀ (l : List (GExpr × ℕ)) (coef : GExpr), (∃ p ∈ l, p.2 % 2 = 1) →
      sqfLoop expr coef l = sympySqrt (absE expr) := by
  intro l
  induction l with
  | nil => intro coef h; simp at h
  | cons p rest ih =>
    intro coef h
    obtain ⟨f, n⟩ := p
    rw [sqfLoop]
    by_cases hodd : n % 2 ≠ 0
    · rw [if_pos hodd]
    · rw [if_neg hodd]
      refine ih _ ?_
      obtain ⟨q, hq, hq2⟩ := h
      rcases List.mem_cons.mp hq with hq | hq
      · exact absurd (by rw [hq] at hq2; simpa using hq2) hodd
      · exact ⟨q, hq, hq2⟩

theorem isComm_addA (a b : GExpr) (ha : isComm a = true) (hb : isComm b = true) :
    isComm (addA a b) = true := by
  rw [isComm, Bool.not_eq_true'] at ha hb ⊢
  rw [addA]
  split_ifs <;> simp [occursB, ha, hb]

theorem isComm_mulA (a b : GExpr) (ha : isComm a = true) (hb : isComm b = true) :
    isComm (mulA a b) = true := by
  rw [isComm, Bool.not_eq_true'] at ha hb ⊢
  rw [mulA]
  split_ifs <;> simp [occursB, ha, hb]

theorem isComm_powA (a : GExpr) (q : ℚ) (ha : isComm a = true) :
    isComm (powA a q) = true := by
  rw [isComm, Bool.not_eq_true'] at ha ⊢
  rw [powA]
  split_ifs <;> simp [occursB, ha]

/-- Differentiation preserves commutativity. -/
theorem isComm_diffE (e : GExpr) (x : ℕ) (h : isComm e = true) :
    isComm (diffE e x) = true := by
  induction e with
  | num q => simp [diffE, isComm, occursB]
  | var i =>
    rw [diffE]
    split_ifs <;> simp [isComm, occursB]
  | bvec i => simp [isComm, occursB] at h
  | add a b iha ihb =>
    rw [isComm, Bool.not_eq_true', occursB, Bool.or_eq_false_iff] at h
    exact isComm_addA _ _ (iha (by simp [isComm, h.1])) (ihb (by simp [isComm, h.2]))
  | mul a b iha ihb =>
    rw [isComm, Bool.not_eq_true', occursB, Bool.or_eq_false_iff] at h
    have ha : isComm a = true := by simp [isComm, h.1]
    have hb : isComm b = true := by simp [isComm, h.2]
    exact isComm_addA _ _ (isComm_mulA _ _ (iha ha) hb) (isComm_mulA _ _ ha (ihb hb))
  | powE a q iha =>
    rw [isComm, Bool.not_eq_true', occursB] at h
    have ha : isComm a = true := by simp [isComm, h]
    refine isComm_mulA _ _ (isComm_mulA _ _ (by simp [isComm, occursB]) ?_) (iha ha)
    exact isComm_powA _ _ ha
  | absE a iha =>
    rw [isComm, Bool.not_eq_true', occursB] at h
    have ha : isComm a = true := by simp [isComm, h]
    refine isComm_mulA _ _ ?_ (iha ha)
    simpa [isComm, occursB] using ha
  | signE a iha => simp [diffE, isComm, occursB]
  | fapp f args => simp [diffE, isComm, occursB]
  | derivE a i iha =>
    rw [isComm, Bool.not_eq_true', occursB] at h
    simpa [diffE, isComm, occursB] using h

theorem derivatives_of_basis_fields (S : SymSub) (smp : GExpr → GExpr) (m : MetricState) :
    (derivatives_of_basis S smp m).n = m.n
    ∧ (derivatives_of_basis S smp m).sig = m.sig
    ∧ (derivatives_of_basis S smp m).is_ortho = m.is_ortho
    ∧ (derivatives_of_basis S smp m).g_is_numeric = m.g_is_numeric
    ∧ (derivatives_of_basis S smp m).g = m.g
    ∧ (derivatives_of_basis S smp m).norm = m.norm
    ∧ (derivatives_of_basis S smp m).coords = m.coords := by
  simp only [derivatives_of_basis]
  split_ifs <;> exact ⟨rfl, rfl, rfl, rfl, rfl, rfl, rfl⟩

theorem normalize_metric_ok_fields (S : SymSub) (smp : GExpr → GExpr)
    (m m2 : MetricState) (h : normalize_metric S smp m = .ok m2) :
    m2.n = m.n ∧ m2.sig = m.sig ∧ m2.is_ortho = m.is_ortho
    ∧ m2.g_is_numeric = m.g_is_numeric ∧ m2.norm = m.norm ∧ m2.coords = m.coords
    ∧ m2.dg = m.dg ∧ m2.connect_flg = m.connect_flg := by
  cases hde : m.de with
  | none =>
    rw [normalize_metric, hde] at h
    exact absurd h (by simp)
  | some od =>
    cases od with
    | none =>
      rw [normalize_metric, hde] at h
      have he := Except.ok.inj h
      rw [← he]
      exact ⟨rfl, rfl, rfl, rfl, rfl, rfl, rfl, rfl⟩
    | some deArr =>
      cases hen : m.e_norm with
      | none =>
        rw [normalize_metric, hde, hen] at h
        exact absurd h (by simp)
      | some oe =>
        cases oe with
        | none =>
          rw [normalize_metric, hde, hen] at h
          exact absurd h (by simp)
        | some en =>
          rw [normalize_metric, hde, hen] at h
          have he := Except.ok.inj h
          rw [← he]
          exact ⟨rfl, rfl, rfl, rfl, rfl, rfl, rfl, rfl⟩

theorem initStep1_ok_fields (S : SymSub) (smp : GExpr → GExpr) (a : InitArgs)
    (m1 : MetricState) (h : initStep1 S smp a = .ok m1) :
    m1.n = a.n ∧ m1.sig = a.sig ∧ m1.is_ortho = initOrtho a
    ∧ m1.g_is_numeric = initNumeric a ∧ m1.g = a.gIn ∧ m1.norm = a.norm
    ∧ m1.coords = a.coords := by
  rw [initStep1] at h
  cases hcs : a.coords with
  | none =>
    rw [hcs] at h
    have he := Except.ok.inj h
    rw [← he]
    exact ⟨rfl, rfl, rfl, rfl, rfl, rfl, hcs⟩
  | some cs =>
    rw [hcs] at h
    obtain ⟨hn, hsg, ho, hnum, hg, hnm, hc⟩ :=
      derivatives_of_basis_fields S smp (initState0 a)
    by_cases hN : a.norm
    · rw [if_pos hN] at h
      by_cases hO : (derivatives_of_basis S smp (initState0 a)).is_ortho = false
      · rw [if_pos hO] at h
        exact absurd h (by simp)
      · rw [if_neg hO] at h
        have he := Except.ok.inj h
        rw [← he]
        exact ⟨hn, hsg, ho, hnum, hg, hnm, hc.trans hcs⟩
    · rw [if_neg hN] at h
      have he := Except.ok.inj h
      rw [← he]
      exact ⟨hn, hsg, ho, hnum, hg, hnm, hc.trans hcs⟩

theorem initStep2_ok_fields (S : SymSub) (smp : GExpr → GExpr) (a : InitArgs)
    (m1 m2 : MetricState) (h : initStep2 S smp a m1 = .ok m2) :
    m2.n = m1.n ∧ m2.sig = m1.sig ∧ m2.is_ortho = m1.is_ortho
    ∧ m2.g_is_numeric = m1.g_is_numeric ∧ m2.coords = m1.coords
    ∧ m2.dg = m1.dg ∧ m2.connect_flg = m1.connect_flg := by
  rw [initStep2] at h
  by_cases hN : a.norm
  · rw [if_pos hN] at h
    by_cases hO : m1.is_ortho
    · rw [if_pos hO] at h
      obtain ⟨h1, h2, h3, h4, h5, h6, h7, h8⟩ := normalize_metric_ok_fields S smp m1 m2 h
      exact ⟨h1, h2, h3, h4, h6, h7, h8⟩
    · rw [if_neg hO] at h
      exact absurd h (by simp)
  · rw [if_neg hN] at h
    have he := Except.ok.inj h
    rw [← he]
    exact ⟨rfl, rfl, rfl, rfl, rfl, rfl, rfl⟩

theorem initStep2_de_none (S : SymSub) (smp : GExpr → GExpr) (a : InitArgs)
    (m1 m2 : MetricState) (hde : m1.de = some none)
    (h : initStep2 S smp a m1 = .ok m2) : m2 = m1 := by
  rw [initStep2] at h
  by_cases hN : a.norm
  · rw [if_pos hN] at h
    by_cases hO : m1.is_ortho
    · rw [if_pos hO, normalize_metric, hde] at h
      exact (Except.ok.inj h).symm
    · rw [if_neg hO] at h
      exact absurd h (by simp)
  · rw [if_neg hN] at h
    exact (Except.ok.inj h).symm

theorem initStep3_ok_fields (m2 m : MetricState) (h : initStep3 m2 = .ok m) :
    m.n = m2.n ∧ m.connect_flg = m2.connect_flg ∧ m.de = m2.de ∧ m.dg = m2.dg
    ∧ m.g = m2.g ∧ m.coords = m2.coords ∧ m.e_norm = m2.e_norm := by
  rw [initStep3] at h
  by_cases hnum : m2.g_is_numeric = false
  · rw [if_pos hnum] at h
    cases hs : signature m2 with
    | error e =>
      rw [hs] at h
      exact absurd h (by simp)
    | ok sv =>
      rw [hs] at h
      have he := Except.ok.inj h
      rw [← he]
      exact ⟨rfl, rfl, rfl, rfl, rfl, rfl, rfl⟩
  · rw [if_neg hnum] at h
    have he := Except.ok.inj h
    rw [← he]
    exact ⟨rfl, rfl, rfl, rfl, rfl, rfl, rfl⟩

theorem initStep3_of_numeric (m2 : MetricState) (h : m2.g_is_numeric = true) :
    initStep3 m2 = .ok m2 := by
  rw [initStep3, if_neg (by simp [h])]

theorem initOrtho_eq_true (a : InitArgs)
    (h : ∀ i j, i < j → j < a.n → a.gIn i j = num 0) : initOrtho a = true := by
  rw [initOrtho, List.all_eq_true]
  intro i hi
  rw [List.all_eq_true]
  intro j hj
  by_cases hij : i < j
  · simp [hij, h i j hij (List.mem_range.mp hj)]
  · simp [hij]

theorem initNumeric_eq_true (a : InitArgs)
    (h : ∀ i j, i < j → j < a.n → isNumber (a.gIn i j) = true) :
    initNumeric a = true := by
  rw [initNumeric, List.all_eq_true]
  intro i hi
  rw [List.all_eq_true]
  intro j hj
  by_cases hij : i < j
  · simp [hij, h i j hij (List.mem_range.mp hj)]
  · simp [hij]

/-- A structurally orthogonal metric matrix (literal zeros off-diagonal) is
also classified fully numeric, because only off-diagonal entries are
scanned. -/
theorem initNumeric_of_structural_ortho (a : InitArgs)
    (h : ∀ i j, i < j → j < a.n → a.gIn i j = num 0) : initNumeric a = true := by
  refine initNumeric_eq_true a fun i j hij hj => ?_
  rw [h i j hij hj]
  rfl

/-- The flat coordinate block: with coordinates present and all metric
derivatives literally zero, `derivatives_of_basis` stores the derivative
array, clears the connection flag and sets the basis-derivative array to
the Python value `None`. -/
theorem derivatives_of_basis_flat (S : SymSub) (smp : GExpr → GExpr)
    (m : MetricState) (cs : List ℕ) (hcs : m.coords = some cs)
    (hflat : ∀ i j, i < m.n → j < m.n → ∀ x ∈ cs, diffE (m.g i j) x = num 0) :
    derivatives_of_basis S smp m
      = { m with dg := some (derivatives_of_g m), connect_flg := false,
                 de := some none } := by
  simp only [derivatives_of_basis]
  rw [connectOf_derivatives_eq_false m cs hcs hflat]
  rfl

theorem initStep1_flat (S : SymSub) (smp : GExpr → GExpr) (a : InitArgs)
    (cs : List ℕ) (m1 : MetricState) (hcs : a.coords = some cs)
    (hflat : ∀ i j, i < a.n → j < a.n → ∀ x ∈ cs, diffE (a.gIn i j) x = num 0)
    (h : initStep1 S smp a = .ok m1) :
    m1.connect_flg = false ∧ m1.de = some none
    ∧ m1.dg = some (derivatives_of_g (initState0 a)) := by
  have hDB := derivatives_of_basis_flat S smp (initState0 a) cs hcs hflat
  have hc1 : (derivatives_of_basis S smp (initState0 a)).connect_flg = false := by
    rw [hDB]
  have hc2 : (derivatives_of_basis S smp (initState0 a)).de = some none := by
    rw [hDB]
  have hc3 : (derivatives_of_basis S smp (initState0 a)).dg
      = some (derivatives_of_g (initState0 a)) := by
    rw [hDB]
  rw [initStep1, hcs] at h
  by_cases hN : a.norm
  · rw [if_pos hN] at h
    by_cases hO : (derivatives_of_basis S smp (initState0 a)).is_ortho = false
    · rw [if_pos hO] at h
      exact absurd h (by simp)
    · rw [if_neg hO] at h
      have he := Except.ok.inj h
      rw [← he]
      exact ⟨hc1, hc2, hc3⟩
  · rw [if_neg hN] at h
    have he := Except.ok.inj h
    rw [← he]
    exact ⟨hc1, hc2, hc3⟩

theorem isComm_mul2 (x y : GExpr) (hx : isComm x = true) (hy : isComm y = true) :
    isComm (.mul x y) = true := by
  rw [isComm, Bool.not_eq_true'] at hx hy ⊢
  simp [occursB, hx, hy]

theorem isComm_divE (x y : GExpr) (hx : isComm x = true) (hy : isComm y = true) :
    isComm (divE x y) = true := by
  rw [isComm, Bool.not_eq_true'] at hx hy ⊢
  simp [divE, occursB, hx, hy]

theorem sem_subE (σ : ℕ → ℝ) (x y : GExpr) (w : List ℕ) :
    sem σ (subE x y) w = sem σ x w - sem σ y w := by
  rw [subE, sem_add, sem_mul_scalar_left σ _ _ (by simp [isComm, occursB]), sem_num,
    if_pos rfl]
  push_cast
  ring

theorem sem_divE_scalar (σ : ℕ → ℝ) (x y : GExpr) (hy : isComm y = true)
    (w : List ℕ) :
    sem σ (divE x y) w = sem σ x w * (sem σ y []) ^ ((-1 : ℚ) : ℝ) := by
  rw [divE, sem_mul_scalar_right σ _ _ (by
      rw [isComm, Bool.not_eq_true'] at hy ⊢
      simp [occursB, hy]),
    sem_powE, if_pos rfl]

/-- The first-kind Christoffel combination is semantically symmetric in the
order of its two positive derivative terms. -/
theorem sEq_gamma_arg (X Y Z Zb : GExpr) (hZ : Z = Zb) :
    sEq (.mul half (subE (.add X Y) Z)) (.mul half (subE (.add Y X) Zb)) := by
  subst hZ
  intro σ w
  rw [sem_mul_scalar_left σ _ _ (by simp [half, isComm, occursB]),
    sem_mul_scalar_left σ _ _ (by simp [half, isComm, occursB]),
    sem_subE, sem_subE, sem_add, sem_add]
  ring

theorem dgGet_default_of_ge (m : MetricState) (cs : List ℕ) (hcs : m.coords = some cs)
    (i j k : ℕ) (hi : i < m.n) (hj : j < m.n) (hk : cs.length ≤ k) :
    dgGet (derivatives_of_g m) i j k = num 0 := by
  rw [dgGet, derivatives_of_g, hcs, show (some cs).getD [] = cs from rfl,
    getD_map_range _ m.n i hi, getD_map_range _ m.n j hj]
  exact List.getD_eq_default _ _ (by simpa using hk)

/-- Entries of the derivative array of a metric with commutative entries are
commutative (out-of-range accesses default to the literal zero). -/
theorem dgGet_derivatives_comm (m : MetricState) (cs : List ℕ)
    (hcs : m.coords = some cs) (hcomm : ∀ i j, isComm (m.g i j) = true) :
    ∀ i j k, isComm (dgGet (derivatives_of_g m) i j k) = true := by
  intro i j k
  by_cases hi : i < m.n
  · by_cases hj : j < m.n
    · by_cases hk : k < cs.length
      · rw [dgGet_derivatives_of_g m cs hcs i j k hi hj hk]
        exact isComm_diffE _ _ (hcomm i j)
      · rw [dgGet_default_of_ge m cs hcs i j k hi hj (le_of_not_lt hk)]
        rfl
    · rw [dgGet, derivatives_of_g, hcs, show (some cs).getD [] = cs from rfl,
        getD_map_range _ m.n i hi,
        List.getD_eq_default ((List.range m.n).map fun j2 => cs.map fun x => diffE (m.g i j2) x)
          ([] : List GExpr) (by simpa using le_of_not_lt hj)]
      rfl
  · rw [dgGet,
      List.getD_eq_default (derivatives_of_g m) ([] : List (List GExpr))
        (by simpa [derivatives_of_g] using le_of_not_lt hi)]
    rfl

/-- Symmetry of the derivative array in its first two indices, inherited
from symmetry of the metric entries. -/
theorem dgGet_derivatives_symm (m : MetricState) (cs : List ℕ)
    (hcs : m.coords = some cs) (hsym : ∀ i j, m.g i j = m.g j i) :
    ∀ i j k, i < m.n → j < m.n →
      dgGet (derivatives_of_g m) i j k = dgGet (derivatives_of_g m) j i k := by
  intro i j k hi hj
  by_cases hk : k < cs.length
  · rw [dgGet_derivatives_of_g m cs hcs i j k hi hj hk,
      dgGet_derivatives_of_g m cs hcs j i k hj hi hk, hsym i j]
  · rw [dgGet_default_of_ge m cs hcs i j k hi hj (le_of_not_lt hk),
      dgGet_default_of_ge m cs hcs j i k hj hi (le_of_not_lt hk)]

/-- In both branches of the coordinate block the stored derivative array is
the one computed by `derivatives_of_g`. -/
theorem derivatives_of_basis_dg (S : SymSub) (smp : GExpr → GExpr) (m : MetricState) :
    (derivatives_of_basis S smp m).dg = some (derivatives_of_g m) := by
  simp only [derivatives_of_basis]
  split_ifs <;> rfl

theorem initStep1_dg_cases (S : SymSub) (smp : GExpr → GExpr) (a : InitArgs)
    (m1 : MetricState) (h : initStep1 S smp a = .ok m1) :
    m1.dg = none
    ∨ ∃ cs, a.coords = some cs ∧ m1.dg = some (derivatives_of_g (initState0 a)) := by
  rw [initStep1] at h
  cases hcs : a.coords with
  | none =>
    rw [hcs] at h
    left
    rw [← Except.ok.inj h]
    rfl
  | some cs =>
    rw [hcs] at h
    refine Or.inr ⟨cs, rfl, ?_⟩
    by_cases hN : a.norm
    · rw [if_pos hN] at h
      by_cases hO : (derivatives_of_basis S smp (initState0 a)).is_ortho = false
      · rw [if_pos hO] at h
        exact absurd h (by simp)
      · rw [if_neg hO] at h
        rw [← Except.ok.inj h]
        exact derivatives_of_basis_dg S smp (initState0 a)
    · rw [if_neg hN] at h
      rw [← Except.ok.inj h]
      exact derivatives_of_basis_dg S smp (initState0 a)

theorem initStep1_e_norm_some (S : SymSub) (smp : GExpr → GExpr) (a : InitArgs)
    (m1 : MetricState) (en : List GExpr) (h : initStep1 S smp a = .ok m1)
    (hen : m1.e_norm = some (some en)) :
    en = (List.range a.n).map fun i => square_root_of_expr S (a.gIn i i) := by
  rw [initStep1] at h
  cases hcs : a.coords with
  | none =>
    rw [hcs] at h
    rw [← Except.ok.inj h] at hen
    exact absurd hen (by simp [initState0])
  | some cs =>
    rw [hcs] at h
    by_cases hN : a.norm
    · rw [if_pos hN] at h
      by_cases hO : (derivatives_of_basis S smp (initState0 a)).is_ortho = false
      · rw [if_pos hO] at h
        exact absurd h (by simp)
      · rw [if_neg hO] at h
        rw [← Except.ok.inj h] at hen
        have he2 := Option.some.inj (Option.some.inj hen)
        rw [← he2]
        obtain ⟨_, _, _, _, hg5, _, _⟩ := derivatives_of_basis_fields S smp (initState0 a)
        simp only [hg5]
        rfl
    · rw [if_neg hN] at h
      rw [← Except.ok.inj h] at hen
      exact absurd hen (by simp)

theorem initStep2_ok_g (S : SymSub) (smp : GExpr → GExpr) (a : InitArgs)
    (m1 m2 : MetricState) (h : initStep2 S smp a m1 = .ok m2) :
    m2.g = m1.g
    ∨ ∃ en deArr, m1.de = some (some deArr) ∧ m1.e_norm = some (some en)
        ∧ m2.g = fun i j =>
            if i < m1.n ∧ j < m1.n then
              Simp_apply S smp (divE (m1.g i j)
                (.mul (en.getD i (num 0)) (en.getD j (num 0))))
            else m1.g i j := by
  rw [initStep2] at h
  by_cases hN : a.norm
  · rw [if_pos hN] at h
    by_cases hO : m1.is_ortho
    · rw [if_pos hO] at h
      cases hde : m1.de with
      | none =>
        rw [normalize_metric, hde] at h
        exact absurd h (by simp)
      | some od =>
        cases od with
        | none =>
          rw [normalize_metric, hde] at h
          left
          rw [← Except.ok.inj h]
        | some deArr =>
          cases hen : m1.e_norm with
          | none =>
            rw [normalize_metric, hde, hen] at h
            exact absurd h (by simp)
          | some oe =>
            cases oe with
            | none =>
              rw [normalize_metric, hde, hen] at h
              exact absurd h (by simp)
            | some en =>
              rw [normalize_metric, hde, hen] at h
              refine Or.inr ⟨en, deArr, rfl, rfl, ?_⟩
              rw [← Except.ok.inj h]
    · rw [if_neg hO] at h
      exact absurd h (by simp)
  · rw [if_neg hN] at h
    left
    rw [← Except.ok.inj h]

theorem metricInit_step1_error (S : SymSub) (smp : GExpr → GExpr) (a : InitArgs)
    (e : PyErr) (h1 : initStep1 S smp a = .error e) : metricInit S smp a = .error e := by
  rw [metricInit, h1]

theorem metricInit_step2_error (S : SymSub) (smp : GExpr → GExpr) (a : InitArgs)
    (m1 : MetricState) (e : PyErr) (h1 : initStep1 S smp a = .ok m1)
    (h2 : initStep2 S smp a m1 = .error e) : metricInit S smp a = .error e := by
  rw [metricInit, h1]
  show (match initStep2 S smp a m1 with
    | .error e => (.error e : Except PyErr MetricState)
    | .ok m2 => initStep3 m2) = .error e
  rw [h2]

theorem metricInit_steps_ok (S : SymSub) (smp : GExpr → GExpr) (a : InitArgs)
    (m1 m2 : MetricState) (h1 : initStep1 S smp a = .ok m1)
    (h2 : initStep2 S smp a m1 = .ok m2) : metricInit S smp a = initStep3 m2 := by
  rw [metricInit, h1]
  show (match initStep2 S smp a m1 with
    | .error e => (.error e : Except PyErr MetricState)
    | .ok m2 => initStep3 m2) = initStep3 m2
  rw [h2]

/-- C2: the claim says that for an orthogonal metric `inverse_metric` fills
`g_inv` with the diagonal of reciprocals and succeeds.  In fact the
orthogonal branch (`metric.py` line 436) reads `S(1)/self.g(i,i)`, CALLING
the sympy matrix object `self.g` instead of subscripting it, so on any
non-empty orthogonal metric the first loop iteration raises
`TypeError: MutableDenseMatrix object is not callable`; evaluated here on
the 1-dimensional orthogonal metric `g = [[1]]` with no memoized inverse. -/
theorem inverse_metric_orthogonal_raises :
    ortho1State.is_ortho = true ∧ ortho1State.g_inv = none
    ∧ (inverse_metric trivSub ortho1State).map (fun _ => ())
        = .error (.typeError "MutableDenseMatrix object is not callable") := by
  exact ⟨rfl, rfl, by decide⟩

/-- C7: `square_root_of_expr` maps the number 4 to 2; it maps -4 also to 2
(the root of the absolute value); and on a non-numeric expression whose
square-free factorization has at least one factor of odd exponent it falls
back to the square root of the absolute value of the whole trig-simplified
expression, which is semantically the square root of the absolute value of
the input whenever `trigsimp` preserves semantics. -/
theorem square_root_of_expr_spec (S : SymSub) (e : GExpr)
    (hnum : isNumber e = false)
    (hodd : ∃ p ∈ (S.sqf_list (S.trigsimp e)).2, p.2 % 2 = 1)
    (hT : sEq (S.trigsimp e) e) :
    square_root_of_expr S (num 4) = num 2
    ∧ square_root_of_expr S (num (-4)) = num 2
    ∧ square_root_of_expr S e = sympySqrt (.absE (S.trigsimp e))
    ∧ sEq (square_root_of_expr S e) (.powE (.absE e) (mkRat 1 2)) := by
  have h3 : square_root_of_expr S e = sympySqrt (.absE (S.trigsimp e)) := by
    rw [square_root_of_expr, if_neg (by simp [hnum])]
    exact sqfLoop_odd _ _ _ hodd
  refine ⟨rfl, rfl, h3, ?_⟩
  intro σ w
  rw [h3,
    show sympySqrt (.absE (S.trigsimp e)) = .powE (.absE (S.trigsimp e)) (mkRat 1 2)
      from rfl,
    sem_powE, sem_powE, sem_absE, sem_absE, hT σ []]

/-- Witness for C7 at a concrete input: the trivial substrate square-free
factorizes the bare symbol `var 0` as `1 * (var 0)^1`, whose single factor
has odd exponent, so the resolver returns the square root of the absolute
value of the symbol. -/
theorem square_root_of_expr_spec_witness :
    square_root_of_expr trivSub (var 0) = .powE (.absE (var 0)) (mkRat 1 2) := by
  have h := square_root_of_expr_spec trivSub (var 0) rfl
    ⟨(var 0, 1), by simp [trivSub], rfl⟩ (fun σ w => rfl)
  exact h.2.2.1

/-- C8: when the signature resolver falls through to the hint, an integer
hint `k` with `0 ≤ k ≤ n` yields `(k, n-k)`; an integer hint `k > n` raises
a range error; the string hints `e`, `m+`, `m-` yield `(n,0)`, `(n-1,1)`
and `(1,n-1)` respectively; any other string, and any non-integer
non-string hint value (modelled by an already-resolved pair), raises an
invalid-signature error. -/
theorem signature_hint_resolution (m : MetricState)
    (hfall : resolvesFromDiag m = false) :
    (∀ k : ℤ, 0 ≤ k → k ≤ (m.n : ℤ) → m.sig = .int k →
      signature m = .ok (.pair k ((m.n : ℤ) - k)))
    ∧ (∀ k : ℤ, (m.n : ℤ) < k → m.sig = .int k →
      signature m = .error (.valueError
        ("self.sig = " ++ toString k ++ " > self.n, not an allowed hint")))
    ∧ (m.sig = .str "e" → signature m = .ok (.pair (m.n : ℤ) 0))
    ∧ (m.sig = .str "m+" → signature m = .ok (.pair ((m.n : ℤ) - 1) 1))
    ∧ (m.sig = .str "m-" → signature m = .ok (.pair 1 ((m.n : ℤ) - 1)))
    ∧ (∀ s : String, s ≠ "e" → s ≠ "m+" → s ≠ "m-" → m.sig = .str s →
      signature m = .error (.valueError
        ("self.sig = " ++ s ++ " is not an allowed hint")))
    ∧ (∀ p q : ℤ, m.sig = .pair p q →
      signature m = .error (.valueError
        ("(" ++ toString p ++ ", " ++ toString q ++ ") is not allowed value for self.sig"))) := by
  refine ⟨?_, ?_, ?_, ?_, ?_, ?_, ?_⟩
  · intro k _ hkn hsig
    rw [signature, if_neg (by simp [hfall]), hsig]
    simp [hkn]
  · intro k hkn hsig
    rw [signature, if_neg (by simp [hfall]), hsig]
    simp [not_le.mpr hkn]
  · intro hsig
    rw [signature, if_neg (by simp [hfall]), hsig]
    simp
  · intro hsig
    rw [signature, if_neg (by simp [hfall]), hsig]
    simp
  · intro hsig
    rw [signature, if_neg (by simp [hfall]), hsig]
    simp
  · intro s h1 h2 h3 hsig
    rw [signature, if_neg (by simp [hfall]), hsig]
    simp [h1, h2, h3]
  · intro p q hsig
    rw [signature, if_neg (by simp [hfall]), hsig]

/-- Witness for C8 at a concrete instance: a four-dimensional
non-orthogonal metric (the diagonal resolution does not apply) with the
integer hint 2 resolves to the signature pair `(2, 2)`. -/
theorem signature_hint_resolution_witness :
    signature hint4State = .ok (.pair 2 2) := by
  have h := (signature_hint_resolution hint4State (by decide)).1 2
    (by decide) (by decide) rfl
  exact h

/-- C6 counterexample: the round trip fails on the product of two
non-commutative symbols.  `linear_expand(e1*e2)` keeps only the first
non-commutative factor as the basis (the `args_cnc` split drops `e2`), so
the reconstructed sum `1 * e1` is not equal to `e1*e2`. -/
theorem linear_expand_round_trip_counterexample :
    linear_expand trivSub (.mul (bvec 0) (bvec 1)) = ([num 1], [bvec 0])
    ∧ ¬ sEq (reconstructed (linear_expand trivSub (.mul (bvec 0) (bvec 1))))
        (.mul (bvec 0) (bvec 1)) := by
  refine ⟨by decide, ?_⟩
  intro h
  have hval := h (fun _ => 0) [0, 1]
  rw [show reconstructed (linear_expand trivSub (.mul (bvec 0) (bvec 1)))
      = .add (num 0) (.mul (num 1) (bvec 0)) from by decide] at hval
  simp [sem_mul, sem_add, sem_num, sem_bvec, List.range_succ] at hval

/-- C6 amended: for every expression each of whose expanded additive terms
contains at most one non-commutative factor (in particular every linear
combination of basis symbols with commutative coefficients), summing
`coefficient * basis` over the pairs returned by `linear_expand` yields an
expression equal to the input; terms with several non-commutative factors
are outside this contract (only their first factor is kept).  The
hypothesis `hSe` states that the substrate `expand` is algebraically sound,
and equality of fully expanded expressions is semantic equality `sEq`. -/
theorem linear_expand_round_trip_single_nc (S : SymSub) (e : GExpr)
    (hSe : sEq (S.expandS e) e)
    (hterms : ∀ t ∈ addends (S.expandS e), ncCount t ≤ 1) :
    sEq (reconstructed (linear_expand S e)) e := by
  intro σ w
  simp only [linear_expand]
  by_cases h0 : S.expandS e = num 0
  · rw [if_pos h0, ← hSe σ w, h0,
      show reconstructed ([num 0], [num 1]) = .add (num 0) (.mul (num 0) (num 1))
        from rfl,
      sem_add, sem_num, sem_mul_scalar_left σ _ _ (by simp [isComm, occursB]), sem_num]
    simp
  · rw [if_neg h0]
    by_cases hadd : isAdd (S.expandS e)
    · rw [if_pos hadd]
      rw [sem_reconstructed, pairsSum_foldl σ w _ hterms [], pairsSum_nil, zero_add,
        sem_addends, hSe σ w]
    · rw [if_neg hadd]
      by_cases hcm : isComm (S.expandS e)
      · rw [if_pos hcm, ← hSe σ w,
          show reconstructed ([S.expandS e], [num 1])
            = .add (num 0) (.mul (S.expandS e) (num 1)) from rfl,
          sem_add, sem_num,
          sem_mul_scalar_right σ _ _ (by simp [isComm, occursB]), sem_num]
        simp
      · rw [if_neg hcm]
        have hmem : S.expandS e ∈ addends (S.expandS e) := by
          rw [addends_of_not_isAdd _ (by simpa using hadd)]
          exact List.mem_cons_self _ _
        rw [sem_reconstructed, pairsSum_processTerm σ w [] _ (hterms _ hmem),
          pairsSum_nil, zero_add, hSe σ w]

/-- Witness for C6 at a concrete input: the single term `x * e0` (one
commutative times one non-commutative factor) round-trips. -/
theorem linear_expand_round_trip_single_nc_witness :
    sEq (reconstructed (linear_expand trivSub (.mul (var 0) (bvec 0))))
      (.mul (var 0) (bvec 0)) :=
  linear_expand_round_trip_single_nc trivSub (.mul (var 0) (bvec 0))
    (fun σ w => rfl) (by decide)

/-- C1: for every metric instance whose connection flag is true (with one
coordinate per dimension and the derivative array stored as computed by
`derivatives_of_g`), `Christoffel_symbols(mode=1)` returns a rank-3 array
whose `(i,j,k)` entry is the Simplifier applied to
`half * (dg[j][k][i] + dg[i][k][j] - dg[i][j][k])`, where `dg[i][j][k]` is
the partial derivative of `g[i,j]` with respect to the `k`-th coordinate. -/
theorem christoffel_mode1_entry_spec (S : SymSub) (smp : GExpr → GExpr)
    (m : MetricState) (cs : List ℕ)
    (hconn : m.connect_flg = true) (hcs : m.coords = some cs)
    (hlen : cs.length = m.n) (hdg : m.dg = some (derivatives_of_g m)) :
    ∃ L, Christoffel_symbols S smp m 1 = .ok (some L)
      ∧ ∀ i j k, i < m.n → j < m.n → k < m.n →
        dgGet L i j k = Simp_apply S smp (.mul half
          (subE (.add (diffE (m.g j k) (cs.getD i 0)) (diffE (m.g i k) (cs.getD j 0)))
            (diffE (m.g i j) (cs.getD k 0)))) := by
  refine ⟨christoffel1 S smp m, ?_, ?_⟩
  · rw [Christoffel_symbols, if_neg (by simp [hconn])]
    simp
  · intro i j k hi hj hk
    rw [christoffel1_entry S smp m i j k hi hj hk, hdg,
      show (some (derivatives_of_g m)).getD [] = derivatives_of_g m from rfl,
      dgGet_derivatives_of_g m cs hcs j k i hj hk (by rw [hlen]; exact hi),
      dgGet_derivatives_of_g m cs hcs i k j hi hk (by rw [hlen]; exact hj),
      dgGet_derivatives_of_g m cs hcs i j k hi hj (by rw [hlen]; exact hk)]

/-- Witness for C1 at a concrete instance: the one-dimensional metric
`g = [[x]]` has `dg[0][0][0] = 1` and its first-kind Christoffel symbol
`Γ(0,0,0)` is the Simplifier applied to `half * (1 + 1 - 1)`. -/
theorem christoffel_mode1_entry_spec_witness :
    (Christoffel_symbols trivSub id curved1State 1).map
        (Option.map fun L => dgGet L 0 0 0)
      = .ok (some (Simp_apply trivSub id
          (.mul half (subE (.add (num 1) (num 1)) (num 1))))) := by
  obtain ⟨L, hL, hE⟩ := christoffel_mode1_entry_spec trivSub id curved1State [0]
    rfl rfl rfl (by decide)
  rw [hL]
  have h000 := hE 0 0 0 (by decide) (by decide) (by decide)
  simp only [Except.map, Option.map]
  rw [h000]
  rfl

/-- C3: for every successful construction with coordinates whose metric
entries are independent of every coordinate (all partial derivatives are the
literal zero), the constructed instance has a false connection flag and its
basis-derivative array is the Python value `None` — explicitly absent, not a
zero-filled array. -/
theorem flat_metric_connect_false_de_none (S : SymSub) (smp : GExpr → GExpr)
    (a : InitArgs) (cs : List ℕ) (m : MetricState)
    (hcs : a.coords = some cs)
    (hflat : ∀ i j, i < a.n → j < a.n → ∀ x ∈ cs, diffE (a.gIn i j) x = num 0)
    (hok : metricInit S smp a = .ok m) :
    m.connect_flg = false ∧ m.de = some none := by
  cases h1 : initStep1 S smp a with
  | error e =>
    rw [metricInit_step1_error S smp a e h1] at hok
    exact absurd hok (by simp)
  | ok m1 =>
    obtain ⟨hcf, hde, hdg⟩ := initStep1_flat S smp a cs m1 hcs hflat h1
    cases h2 : initStep2 S smp a m1 with
    | error e =>
      rw [metricInit_step2_error S smp a m1 e h1 h2] at hok
      exact absurd hok (by simp)
    | ok m2 =>
      rw [metricInit_steps_ok S smp a m1 m2 h1 h2] at hok
      have hm2 : m2 = m1 := initStep2_de_none S smp a m1 m2 hde h2
      obtain ⟨_, hcf3, hde3, _, _, _, _⟩ := initStep3_ok_fields m2 m hok
      rw [hm2] at hcf3 hde3
      exact ⟨hcf3.trans hcf, hde3.trans hde⟩

/-- Witness for C3 at a concrete construction: the coordinate-dependent-free
metric `g = [[2]]` on one coordinate yields a false connection flag and an
absent basis-derivative array. -/
theorem flat_metric_connect_false_de_none_witness :
    (metricInit trivSub id flat1Args).map (fun m => (m.connect_flg, m.de))
      = .ok (false, some none) := by
  have hsome : (metricInit trivSub id flat1Args).toOption.isSome = true := by decide
  cases hok : metricInit trivSub id flat1Args with
  | error e =>
    rw [hok] at hsome
    simp [Except.toOption] at hsome
  | ok m =>
    have h := flat_metric_connect_false_de_none trivSub id flat1Args [0] m rfl
      (fun i j _ _ x _ => rfl) hok
    simp only [Except.map]
    rw [h.1, h.2]

/-- C9: the constructor invokes the signature resolver only when the metric
is not classified fully numeric (every strict-upper-triangular entry a pure
number), so a fully numeric metric keeps the raw hint value in `sig` instead
of a computed pair. -/
theorem numeric_metric_keeps_raw_sig_hint (S : SymSub) (smp : GExpr → GExpr)
    (a : InitArgs) (m : MetricState)
    (hnum : ∀ i j, i < j → j < a.n → isNumber (a.gIn i j) = true)
    (hok : metricInit S smp a = .ok m) : m.sig = a.sig := by
  have hN : initNumeric a = true := initNumeric_eq_true a hnum
  cases h1 : initStep1 S smp a with
  | error e =>
    rw [metricInit_step1_error S smp a e h1] at hok
    exact absurd hok (by simp)
  | ok m1 =>
    obtain ⟨_, hsg1, _, hnum1, _, _, _⟩ := initStep1_ok_fields S smp a m1 h1
    cases h2 : initStep2 S smp a m1 with
    | error e =>
      rw [metricInit_step2_error S smp a m1 e h1 h2] at hok
      exact absurd hok (by simp)
    | ok m2 =>
      rw [metricInit_steps_ok S smp a m1 m2 h1 h2] at hok
      obtain ⟨_, hsg2, _, hnum2, _, _, _⟩ := initStep2_ok_fields S smp a m1 m2 h2
      have hm2num : m2.g_is_numeric = true := by rw [hnum2, hnum1, hN]
      rw [initStep3_of_numeric m2 hm2num] at hok
      have he := Except.ok.inj hok
      rw [← he, hsg2, hsg1]

/-- Witness for C9 at a concrete construction: the numeric Euclidean metric
`[[1,0],[0,1]]` constructed with the hint `m+` still carries the raw string
hint, not the pair `(1, 1)`. -/
theorem numeric_metric_keeps_raw_sig_hint_witness :
    (metricInit trivSub id numericArgs).map MetricState.sig = .ok (.str "m+") := by
  have hsome : (metricInit trivSub id numericArgs).toOption.isSome = true := by decide
  cases hok : metricInit trivSub id numericArgs with
  | error e =>
    rw [hok] at hsome
    simp [Except.toOption] at hsome
  | ok m =>
    have h := numeric_metric_keeps_raw_sig_hint trivSub id numericArgs m
      (by
        intro i j _ _
        simp only [numericArgs, sampleArgs]
        split_ifs <;> rfl)
      hok
    simp only [Except.map]
    rw [h]
    rfl

/-- C10: every construction with `norm=True`, `coords=None` and a
(structurally) orthogonal metric crashes with an `AttributeError`: the
normalization step reads `self.de`, which is only ever assigned when
coordinates are present; in particular no normalized instance is returned
and the documented configuration `ValueError` is not raised. -/
theorem norm_without_coords_attribute_error (S : SymSub) (smp : GExpr → GExpr)
    (a : InitArgs) (hcs : a.coords = none) (hnorm : a.norm = true)
    (hortho : ∀ i j, i < j → j < a.n → a.gIn i j = num 0) :
    metricInit S smp a
      = .error (.attributeError "Metric object has no attribute de") := by
  have hO : initOrtho a = true := initOrtho_eq_true a hortho
  have h1 : initStep1 S smp a = .ok (initState0 a) := by
    rw [initStep1, hcs]
  have h2 : initStep2 S smp a (initState0 a)
      = .error (.attributeError "Metric object has no attribute de") := by
    rw [initStep2, if_pos hnorm,
      if_pos (show (initState0 a).is_ortho = true from hO), normalize_metric]
    rfl
  exact metricInit_step2_error S smp a (initState0 a) _ h1 h2

/-- Witness for C10 at a concrete construction: requesting `norm=True` on
the coordinate-free orthogonal metric `g = [[1]]` raises the attribute
error. -/
theorem norm_without_coords_attribute_error_witness :
    (metricInit trivSub id normNoCoordsArgs).map (fun _ => (0 : ℕ))
      = .error (.attributeError "Metric object has no attribute de") := by
  have h := norm_without_coords_attribute_error trivSub id normNoCoordsArgs rfl rfl
    (fun i j hij hj => absurd (Nat.lt_of_lt_of_le hij (Nat.le_of_lt_succ hj)) (by omega))
  rw [h]
  rfl

/-- C4 counterexample: constructing the flat orthogonal metric `g = [[2]]`
with one coordinate and `norm=True` leaves `g[0,0] = 2` unchanged, and `2`
is not (even semantically) the rescaled value the claim asserts,
`Simp.apply(g[0,0] / (e_norm[0] * e_norm[0]))`, whose value is `1`; the
normalization step returned before the metric-rescaling loop because the
basis-derivative array is `None`. -/
theorem normalize_flat_keeps_g_counterexample :
    (metricInit trivSub id flatNormArgs).map (fun m => m.g 0 0) = .ok (num 2)
    ∧ ¬ sEq (num 2) (Simp_apply trivSub id (divE (num 2)
        (.mul (square_root_of_expr trivSub (num 2))
          (square_root_of_expr trivSub (num 2))))) := by
  refine ⟨by decide, ?_⟩
  intro h
  have hval := h (fun _ => 0) []
  rw [show Simp_apply trivSub id (divE (num 2)
      (.mul (square_root_of_expr trivSub (num 2)) (square_root_of_expr trivSub (num 2))))
      = .add (num 0) (.mul (.mul (num 2) (.powE
          (.mul (.powE (num 2) (mkRat 1 2)) (.powE (num 2) (mkRat 1 2))) (-1))) (num 1))
    from by decide] at hval
  simp only [sem_add, sem_mul_nil, sem_num, sem_powE, eq_self_iff_true, if_true] at hval
  have hmk : ((mkRat 1 2 : ℚ) : ℝ) = 1 / 2 := by
    rw [show (mkRat 1 2 : ℚ) = 1 / 2 from by norm_num [Rat.mkRat_eq_div]]
    push_cast
    ring
  rw [hmk] at hval
  push_cast at hval
  rw [← Real.rpow_add (by norm_num : (0 : ℝ) < 2),
    show (1 : ℝ) / 2 + 1 / 2 = 1 from by norm_num, Real.rpow_one,
    Real.rpow_neg_one] at hval
  norm_num at hval

/-- C4 amended/corrected: with `norm=True` on an orthogonal metric with
coordinates whose connection flag is false, the normalization step returns
immediately (it is the identity on every state whose basis-derivative array
is the Python `None`), and the metric tensor is NOT rescaled: the
constructor succeeds and the final `g` is the built matrix unchanged. -/
theorem normalize_flat_returns_immediately (S : SymSub) (smp : GExpr → GExpr)
    (a : InitArgs) (cs : List ℕ)
    (hcs : a.coords = some cs) (hnorm : a.norm = true)
    (hortho : ∀ i j, i < j → j < a.n → a.gIn i j = num 0)
    (hflat : ∀ i j, i < a.n → j < a.n → ∀ x ∈ cs, diffE (a.gIn i j) x = num 0) :
    (∀ mm : MetricState, mm.de = some none → normalize_metric S smp mm = .ok mm)
    ∧ ∃ m, metricInit S smp a = .ok m ∧ m.g = a.gIn ∧ m.de = some none
        ∧ m.connect_flg = false := by
  constructor
  · intro mm hmm
    rw [normalize_metric, hmm]
  · have hO : initOrtho a = true := initOrtho_eq_true a hortho
    have hN : initNumeric a = true := initNumeric_of_structural_ortho a hortho
    have hDB := derivatives_of_basis_flat S smp (initState0 a) cs hcs hflat
    have hmAo : (derivatives_of_basis S smp (initState0 a)).is_ortho = true := by
      rw [hDB]
      exact hO
    have hnotfalse : ¬ (derivatives_of_basis S smp (initState0 a)).is_ortho = false := by
      rw [hmAo]
      simp
    cases h1 : initStep1 S smp a with
    | error e =>
      rw [initStep1, hcs, if_pos hnorm, if_neg hnotfalse] at h1
      exact absurd h1 (by simp)
    | ok m1 =>
      obtain ⟨hcf1, hde1, hdg1⟩ := initStep1_flat S smp a cs m1 hcs hflat h1
      obtain ⟨hn1, hsg1, ho1, hnum1, hg1, hnm1, hc1⟩ := initStep1_ok_fields S smp a m1 h1
      refine ⟨m1, ?_, hg1, hde1, hcf1⟩
      cases h2 : initStep2 S smp a m1 with
      | error e =>
        rw [initStep2, if_pos hnorm, if_pos (by rw [ho1]; exact hO),
          normalize_metric, hde1] at h2
        exact absurd h2 (by simp)
      | ok m2 =>
        have hm2 : m2 = m1 := initStep2_de_none S smp a m1 m2 hde1 h2
        rw [metricInit_steps_ok S smp a m1 m2 h1 h2, hm2]
        exact initStep3_of_numeric m1 (by rw [hnum1]; exact hN)

/-- C5 counterexample: the explicit-matrix input path of the constructor
performs no symmetry check, so the non-symmetric matrix `[[1,2],[3,1]]`
yields a successfully constructed instance with `g[0,1] = 2` and
`g[1,0] = 3`, which are not equal symbolic values — the symmetry invariant
fails for this constructed metric instance. -/
theorem constructed_metric_asymmetric_counterexample :
    (metricInit trivSub id asymArgs).map (fun m => (m.g 0 1, m.g 1 0))
      = .ok (num 2, num 3)
    ∧ ¬ sEq (num 2) (num 3) := by
  refine ⟨by decide, ?_⟩
  intro h
  have hval := h (fun _ => 0) []
  simp only [sem_num, eq_self_iff_true, if_true] at hval
  norm_num at hval

/-- C5 amended/corrected: the symmetry invariants hold for every constructed
metric whose SUPPLIED matrix is symmetric with commutative scalar entries
(the explicit-matrix input path does not enforce this): the final `g` stays
symmetric as a symbolic value (structurally when not rescaled, semantically
after normalization rescales it), the stored derivative array satisfies
`dg[i][j][k] = dg[j][i][k]` literally, and the first-kind Christoffel array
returned by `Christoffel_symbols(mode=1)` satisfies `Γ(i,j,k) = Γ(j,i,k)`
as symbolic values.  The substrate hypotheses state that the simplification
pipeline and `expand` respect symbolic equality and that
`expand`/`trigsimp`/`sqf_list` preserve commutativity. -/
theorem symmetric_input_symmetry_invariants (S : SymSub) (smp : GExpr → GExpr)
    (a : InitArgs) (m : MetricState)
    (hsimp : ∀ x y, sEq x y → sEq (smp x) (smp y))
    (hSe : ∀ x, sEq (S.expandS x) x)
    (hSc : ∀ x, isComm x = true → isComm (S.expandS x) = true)
    (hT : ∀ x, isComm x = true → isComm (S.trigsimp x) = true)
    (hQ1 : ∀ x, isComm x = true → isComm (S.sqf_list x).1 = true)
    (hQ2 : ∀ x, isComm x = true → ∀ p ∈ (S.sqf_list x).2, isComm p.1 = true)
    (hcomm : ∀ i j, isComm (a.gIn i j) = true)
    (hsym : ∀ i j, a.gIn i j = a.gIn j i)
    (hok : metricInit S smp a = .ok m) :
    (∀ i j, i < a.n → j < a.n → sEq (m.g i j) (m.g j i))
    ∧ (∀ dgl, m.dg = some dgl → ∀ i j k, i < a.n → j < a.n →
        dgGet dgl i j k = dgGet dgl j i k)
    ∧ (∀ L, Christoffel_symbols S smp m 1 = .ok (some L) →
        ∀ i j k, i < a.n → j < a.n → k < a.n →
          sEq (dgGet L i j k) (dgGet L j i k)) := by
  have hcomm0 : ∀ i j, isComm ((initState0 a).g i j) = true := hcomm
  have hsym0 : ∀ i j, (initState0 a).g i j = (initState0 a).g j i := hsym
  cases h1 : initStep1 S smp a with
  | error e =>
    rw [metricInit_step1_error S smp a e h1] at hok
    exact absurd hok (by simp)
  | ok m1 =>
    obtain ⟨hn1, hsg1, ho1, hnum1, hg1, hnm1, hc1⟩ := initStep1_ok_fields S smp a m1 h1
    cases h2 : initStep2 S smp a m1 with
    | error e =>
      rw [metricInit_step2_error S smp a m1 e h1 h2] at hok
      exact absurd hok (by simp)
    | ok m2 =>
      rw [metricInit_steps_ok S smp a m1 m2 h1 h2] at hok
      obtain ⟨hn2, hsg2, ho2, hnum2, hc2, hdg2, hcf2⟩ := initStep2_ok_fields S smp a m1 m2 h2
      obtain ⟨hn3, hcf3, hde3, hdg3, hg3, hc3, he3⟩ := initStep3_ok_fields m2 m hok
      have hmn : m.n = a.n := by rw [hn3, hn2, hn1]
      have hmdg : m.dg = m1.dg := by rw [hdg3, hdg2]
      refine ⟨?_, ?_, ?_⟩
      · -- symmetry of the final metric entries
        intro i j hi hj
        rcases initStep2_ok_g S smp a m1 m2 h2 with hgid | ⟨en, deArr, hde, hen, hg2⟩
        · have hmg : m.g = a.gIn := by rw [hg3, hgid, hg1]
          intro σ w
          rw [hmg, hsym i j]
        · have henl := initStep1_e_norm_some S smp a m1 en h1 hen
          have hmg : m.g = fun i j =>
              if i < m1.n ∧ j < m1.n then
                Simp_apply S smp (divE (m1.g i j)
                  (.mul (en.getD i (num 0)) (en.getD j (num 0))))
              else m1.g i j := by
            rw [hg3, hg2]
          have hi1 : i < m1.n := by rw [hn1]; exact hi
          have hj1 : j < m1.n := by rw [hn1]; exact hj
          have heni : en.getD i (num 0) = square_root_of_expr S (a.gIn i i) := by
            rw [henl]
            exact getD_map_range _ a.n i hi _
          have henj : en.getD j (num 0) = square_root_of_expr S (a.gIn j j) := by
            rw [henl]
            exact getD_map_range _ a.n j hj _
          have hci : isComm (square_root_of_expr S (a.gIn i i)) = true :=
            isComm_square_root_of_expr S hT hQ1 hQ2 _ (hcomm i i)
          have hcj : isComm (square_root_of_expr S (a.gIn j j)) = true :=
            isComm_square_root_of_expr S hT hQ1 hQ2 _ (hcomm j j)
          have hAcomm : isComm (divE (a.gIn i j)
              (.mul (square_root_of_expr S (a.gIn i i))
                (square_root_of_expr S (a.gIn j j)))) = true :=
            isComm_divE _ _ (hcomm i j) (isComm_mul2 _ _ hci hcj)
          have hBcomm : isComm (divE (a.gIn j i)
              (.mul (square_root_of_expr S (a.gIn j j))
                (square_root_of_expr S (a.gIn i i)))) = true :=
            isComm_divE _ _ (hcomm j i) (isComm_mul2 _ _ hcj hci)
          have hAB : sEq
              (divE (a.gIn i j) (.mul (square_root_of_expr S (a.gIn i i))
                (square_root_of_expr S (a.gIn j j))))
              (divE (a.gIn j i) (.mul (square_root_of_expr S (a.gIn j j))
                (square_root_of_expr S (a.gIn i i)))) := by
            intro σ w
            rw [sem_divE_scalar σ _ _ (isComm_mul2 _ _ hci hcj),
              sem_divE_scalar σ _ _ (isComm_mul2 _ _ hcj hci),
              sem_mul_nil, sem_mul_nil, hsym i j,
              mul_comm (sem σ (square_root_of_expr S (a.gIn i i)) [])
                (sem σ (square_root_of_expr S (a.gIn j j)) [])]
          have hfinal := Simp_apply_sEq_of_comm S smp _ _ hsimp
            (hSc _ hAcomm) (hSc _ hBcomm)
            (fun σ w => by rw [hSe _ σ w, hSe _ σ w]; exact hAB σ w)
          intro σ w
          rw [hmg]
          simp only [if_pos (And.intro hi1 hj1), if_pos (And.intro hj1 hi1), hg1,
            heni, henj]
          exact hfinal σ w
      · -- structural symmetry of the stored derivative array
        intro dgl hdgl i j k hi hj
        rcases initStep1_dg_cases S smp a m1 h1 with hnone | ⟨cs, hcs, hsome⟩
        · rw [hmdg, hnone] at hdgl
          exact absurd hdgl (by simp)
        · rw [hmdg, hsome] at hdgl
          have hd := Option.some.inj hdgl
          rw [← hd]
          exact dgGet_derivatives_symm (initState0 a) cs hcs hsym0 i j k hi hj
      · -- semantic symmetry of the first-kind Christoffel array
        intro L hL i j k hi hj hk
        by_cases hcf : m.connect_flg = false
        · rw [Christoffel_symbols, if_pos hcf] at hL
          exact absurd (Except.ok.inj hL) (by simp)
        · rw [Christoffel_symbols, if_neg hcf, if_pos rfl] at hL
          have hLc : L = christoffel1 S smp m := (Option.some.inj (Except.ok.inj hL)).symm
          have hi' : i < m.n := by rw [hmn]; exact hi
          have hj' : j < m.n := by rw [hmn]; exact hj
          have hk' : k < m.n := by rw [hmn]; exact hk
          rcases initStep1_dg_cases S smp a m1 h1 with hnone | ⟨cs, hcs, hsome⟩
          · have hmdgn : m.dg = none := by rw [hmdg, hnone]
            rw [hLc, christoffel1_entry S smp m i j k hi' hj' hk',
              christoffel1_entry S smp m j i k hj' hi' hk', hmdgn]
            exact fun σ w => rfl
          · have hmdgs : m.dg = some (derivatives_of_g (initState0 a)) := by
              rw [hmdg, hsome]
            have hDsym := dgGet_derivatives_symm (initState0 a) cs hcs hsym0
            have hDcomm := dgGet_derivatives_comm (initState0 a) cs hcs hcomm0
            rw [hLc, christoffel1_entry S smp m i j k hi' hj' hk',
              christoffel1_entry S smp m j i k hj' hi' hk', hmdgs,
              show (some (derivatives_of_g (initState0 a))).getD []
                = derivatives_of_g (initState0 a) from rfl]
            have hAcomm : isComm (GExpr.mul half
                (subE (.add (dgGet (derivatives_of_g (initState0 a)) j k i)
                    (dgGet (derivatives_of_g (initState0 a)) i k j))
                  (dgGet (derivatives_of_g (initState0 a)) i j k))) = true := by
              have h1c := hDcomm j k i
              have h2c := hDcomm i k j
              have h3c := hDcomm i j k
              rw [isComm, Bool.not_eq_true'] at h1c h2c h3c ⊢
              simp [subE, occursB, half, h1c, h2c, h3c]
            have hBcomm : isComm (GExpr.mul half
                (subE (.add (dgGet (derivatives_of_g (initState0 a)) i k j)
                    (dgGet (derivatives_of_g (initState0 a)) j k i))
                  (dgGet (derivatives_of_g (initState0 a)) j i k))) = true := by
              have h1c := hDcomm i k j
              have h2c := hDcomm j k i
              have h3c := hDcomm j i k
              rw [isComm, Bool.not_eq_true'] at h1c h2c h3c ⊢
              simp [subE, occursB, half, h1c, h2c, h3c]
            have hAB := sEq_gamma_arg
              (dgGet (derivatives_of_g (initState0 a)) j k i)
              (dgGet (derivatives_of_g (initState0 a)) i k j)
              (dgGet (derivatives_of_g (initState0 a)) i j k)
              (dgGet (derivatives_of_g (initState0 a)) j i k)
              (dgGet_derivatives_symm (initState0 a) cs hcs hsym0 i j k hi hj)
            exact Simp_apply_sEq_of_comm S smp _ _ hsimp
              (hSc _ hAcomm) (hSc _ hBcomm)
              (fun σ w => by rw [hSe _ σ w, hSe _ σ w]; exact hAB σ w)

/-- Witness for C5 at a concrete construction: the symmetric symbolic
diagonal metric keeps symmetric entries. -/
theorem symmetric_input_symmetry_invariants_witness :
    sEq ((metricInit trivSub id symDiagArgs).toOption.elim (num 0) fun m => m.g 0 1)
      ((metricInit trivSub id symDiagArgs).toOption.elim (num 0) fun m => m.g 1 0) := by
  have hsome : (metricInit trivSub id symDiagArgs).toOption.isSome = true := by decide
  cases hok : metricInit trivSub id symDiagArgs with
  | error e =>
    rw [hok] at hsome
    simp [Except.toOption] at hsome
  | ok m =>
    have h := symmetric_input_symmetry_invariants trivSub id symDiagArgs m
      (fun x y hxy => hxy) (fun x σ w => rfl) (fun x hx => hx) (fun x hx => hx)
      (fun x _ => rfl)
      (by
        intro x hx p hp
        have hp2 : p = (x, 1) := by simpa [trivSub] using hp
        rw [hp2]
        exact hx)
      (by
        intro i j
        dsimp only [symDiagArgs, sampleArgs]
        split_ifs <;> rfl)
      (by
        intro i j
        dsimp only [symDiagArgs, sampleArgs]
        by_cases hij : i = j
        · rw [if_pos hij, if_pos hij.symm]
        · rw [if_neg hij, if_neg fun hh => hij hh.symm])
      hok
    have h1 := h.1 0 1 (by decide) (by decide)
    exact h1

/-- Witness for C4 at a concrete construction: the flat one-dimensional
metric `g = [[2]]` with `norm=True` ends with `g[0,0] = 2` and an absent
derivative array. -/
theorem normalize_flat_returns_immediately_witness :
    (metricInit trivSub id flatNormArgs).map (fun m => (m.g 0 0, m.de))
      = .ok (num 2, some none) := by
  obtain ⟨hnoop, m, hok, hg, hde, hcf⟩ :=
    normalize_flat_returns_immediately trivSub id flatNormArgs [0] rfl rfl
      (fun i j hij hj => absurd (Nat.lt_of_lt_of_le hij (Nat.le_of_lt_succ hj)) (by omega))
      (fun i j _ _ x _ => rfl)
  rw [hok]
  simp only [Except.map]
  rw [hg, hde]
  rfl

end Galgebra
